import Mathlib

/-!
Verification of the Minestodon Minecraft server front-end (protocol 760/761):
a shallow embedding of the packet codec, framing, legacy-ping, registry and
text-rendering code of the repository, with theorems checking the
specification's claims about it.

Machine integers are modelled as `Nat` bit patterns (`% 2 ^ w` where Rust
wraps or discards bits); byte streams are `List Nat` with entries below 256;
fallible Rust code (`Result`, and panics) returns `Option`.
-/

namespace Minestodon

/-- The two `VarInt` instantiations of `mc/packet_io.rs`: `i32` has
`MAX_VAR_LEN = 5` and 32 value bits, `i64` has `MAX_VAR_LEN = 10` and 64
value bits.  A value of type `V` is represented by its unsigned
two's-complement bit pattern, a `Nat` below `2 ^ width`. -/
structure VarIntTy where
  maxVarLen : Nat
  width : Nat
deriving DecidableEq, Repr

/-- The `i32` instantiation (`impl VarInt for i32`, `MAX_VAR_LEN = 5`). -/
def I32 : VarIntTy := ⟨5, 32⟩

/-- The `i64` instantiation (`impl VarInt for i64`, `MAX_VAR_LEN = 10`). -/
def I64 : VarIntTy := ⟨10, 64⟩

/-- `PartialVarInt<V>` from `mc/packet_io.rs`: an incremental VarInt decoder,
either still accumulating the raw bytes seen so far, or complete with a
decoded value (stored as its unsigned bit pattern). -/
inductive PartialVarInt where
  | Partial (bytes : List Nat)
  | Full (value : Nat)
deriving DecidableEq, Repr

/-- The composition loop at the end of `PartialVarInt::next`:
`for (group, byte) in bytes { full |= V::from(byte & 0x7f) << (group * 7) }`.
Rust's `<<` on an `w`-bit integer discards the bits shifted past the top,
hence the `% 2 ^ w`. -/
def composeVarInt (w : Nat) : List Nat → Nat → Nat → Nat
  | [], _, full => full
  | b :: bs, group, full =>
      composeVarInt w bs (group + 1) (full ||| ((b % 128) <<< (7 * group)) % 2 ^ w)

/-- `PartialVarInt::<V>::next` from `mc/packet_io.rs`.  `none` models the
`bail!`-ed `MalformedVarInt` error ("the VarInt is too long").  A byte is
final iff `byte >> 7 == 0`; a non-final byte that brings the accumulated
length up to `MAX_VAR_LEN` is rejected. -/
def PartialVarInt.next (T : VarIntTy) : PartialVarInt → Nat → Option PartialVarInt
  | .Full v, _ => some (.Full v)
  | .Partial bytes, byte =>
      let bytes := bytes ++ [byte]
      if byte / 128 = 0 then
        some (.Full (composeVarInt T.width bytes 0 0))
      else if bytes.length = T.maxVarLen then none
      else some (.Partial bytes)

/-- The loop body of `PacketWriteExt::write_var`: emit `var & 0x7f`, shift
`var` right (unsigned) by 7; the high bit marks a non-final byte.  Operates
on the unsigned bit pattern, so one definition serves both `i32` and
`i64`. -/
def writeVar (v : Nat) : List Nat :=
  if v / 128 = 0 then [v % 128]
  else (v % 128 + 128) :: writeVar (v / 128)
termination_by v
decreasing_by exact Nat.div_lt_self (by omega) (by omega)

/-- The loop of `PacketReadExt::read_var`: pull one byte at a time from the
input and feed it to the incremental decoder until it completes (or the
input ends / the decoder errors).  Returns the decoded pattern and the
unread remainder of the input. -/
def readVarGo (T : VarIntTy) (p : PartialVarInt) : List Nat → Option (Nat × List Nat)
  | [] => none
  | b :: rest =>
      match p.next T b with
      | none => none
      | some (.Full v) => some (v, rest)
      | some q => readVarGo T q rest

/-- `PacketReadExt::read_var`, starting from `PartialVarInt::new()`. -/
def readVar (T : VarIntTy) (input : List Nat) : Option (Nat × List Nat) :=
  readVarGo T (.Partial []) input

/-- The mathematical value of a little-endian base-128 digit string (7 bits
per byte, continuation bits ignored).  Used only to state and prove facts
about `composeVarInt` and `writeVar`. -/
def varIntValue : List Nat → Nat
  | [] => 0
  | b :: bs => b % 128 + 128 * varIntValue bs

theorem lor_two_pow_mul {k : Nat} (a b : Nat) (h : a < 2 ^ k) :
    a ||| 2 ^ k * b = a + 2 ^ k * b := by
  apply Nat.eq_of_testBit_eq
  intro i
  rw [Nat.testBit_lor]
  rcases lt_or_ge i k with hik | hik
  · have hsplit : 2 ^ k = 2 ^ i * 2 ^ (k - i) := by
      rw [← pow_add]
      congr 1
      omega
    obtain ⟨c, hc⟩ : (2 : Nat) ∣ 2 ^ (k - i) := dvd_pow_self 2 (by omega)
    have hpos : (0 : Nat) < 2 ^ i := by positivity
    have h1 : Nat.testBit (2 ^ k * b) i = false := by
      rw [Nat.testBit_to_div_mod, hsplit, mul_assoc, Nat.mul_div_cancel_left _ hpos,
        hc, mul_assoc, Nat.mul_mod_right]
      simp
    have h2 : Nat.testBit (a + 2 ^ k * b) i = Nat.testBit a i := by
      rw [Nat.testBit_to_div_mod, Nat.testBit_to_div_mod, hsplit, mul_assoc,
        Nat.add_mul_div_left _ _ hpos, hc, mul_assoc, Nat.add_mul_mod_self_left]
    rw [h1, h2, Bool.or_false]
  · have ha : Nat.testBit a i = false :=
      Nat.testBit_eq_false_of_lt (lt_of_lt_of_le h (Nat.pow_le_pow_right (by omega) hik))
    have hpos : (0 : Nat) < 2 ^ k := by positivity
    have hsplit : 2 ^ i = 2 ^ k * 2 ^ (i - k) := by
      rw [← pow_add]
      congr 1
      omega
    have h1 : Nat.testBit (2 ^ k * b) i = decide (b / 2 ^ (i - k) % 2 = 1) := by
      rw [Nat.testBit_to_div_mod, hsplit, ← Nat.div_div_eq_div_mul,
        Nat.mul_div_cancel_left _ hpos]
    have h2 : Nat.testBit (a + 2 ^ k * b) i = decide (b / 2 ^ (i - k) % 2 = 1) := by
      rw [Nat.testBit_to_div_mod, hsplit, ← Nat.div_div_eq_div_mul]
      have hdiv : (a + 2 ^ k * b) / 2 ^ k = b := by
        rw [Nat.add_mul_div_left _ _ hpos, Nat.div_eq_of_lt h]
        omega
      rw [hdiv]
    rw [ha, h1, h2, Bool.false_or]

theorem composeVarInt_spec (w : Nat) :
    ∀ (bs : List Nat) (group full : Nat), full < 2 ^ (7 * group) →
      full + 2 ^ (7 * group) * varIntValue bs < 2 ^ w →
      composeVarInt w bs group full = full + 2 ^ (7 * group) * varIntValue bs
  | [], group, full, _, _ => by simp [composeVarInt, varIntValue]
  | b :: bs, group, full, hfull, hbound => by
      rw [composeVarInt]
      have hval : varIntValue (b :: bs) = b % 128 + 128 * varIntValue bs := rfl
      have hexp : 2 ^ (7 * (group + 1)) = 2 ^ (7 * group) * 128 := by
        rw [show 7 * (group + 1) = 7 * group + 7 by ring, pow_add]
        norm_num
      have hsplit : 2 ^ (7 * group) * varIntValue (b :: bs)
          = 2 ^ (7 * group) * (b % 128) + 2 ^ (7 * group) * 128 * varIntValue bs := by
        rw [hval]
        ring
      rw [hsplit] at hbound
      have hpart0 : (b % 128) <<< (7 * group) = 2 ^ (7 * group) * (b % 128) := by
        rw [Nat.shiftLeft_eq_mul_pow]
        ring
      have hpartlt : 2 ^ (7 * group) * (b % 128) < 2 ^ w := by omega
      have hpart : (b % 128) <<< (7 * group) % 2 ^ w = 2 ^ (7 * group) * (b % 128) := by
        rw [hpart0]
        exact Nat.mod_eq_of_lt hpartlt
      rw [hpart, lor_two_pow_mul _ _ hfull]
      have hmono : 2 ^ (7 * group) * (b % 128) ≤ 2 ^ (7 * group) * 127 :=
        Nat.mul_le_mul_left _ (by omega)
      have hfull' : full + 2 ^ (7 * group) * (b % 128) < 2 ^ (7 * (group + 1)) := by
        rw [hexp]
        omega
      have hbound' : full + 2 ^ (7 * group) * (b % 128)
          + 2 ^ (7 * (group + 1)) * varIntValue bs < 2 ^ w := by
        rw [hexp]
        omega
      rw [composeVarInt_spec w bs (group + 1) _ hfull' hbound']
      rw [hexp, hval]
      ring

theorem varIntValue_writeVar (v : Nat) : varIntValue (writeVar v) = v := by
  induction v using Nat.strong_induction_on with
  | _ v ih =>
    rw [writeVar]
    by_cases h : v / 128 = 0
    · simp only [h, if_true, varIntValue]
      omega
    · simp only [h, if_false, varIntValue]
      rw [Nat.add_mod_right, ih (v / 128) (Nat.div_lt_self (by omega) (by omega))]
      omega

theorem composeVarInt_writeVar {w : Nat} (v : Nat) (hv : v < 2 ^ w) :
    composeVarInt w (writeVar v) 0 0 = v := by
  have := composeVarInt_spec w (writeVar v) 0 0 (by norm_num)
    (by rw [varIntValue_writeVar]; simpa using hv)
  rw [this, varIntValue_writeVar]
  simp

theorem writeVar_length_le (k : Nat) (v : Nat) (hk : 1 ≤ k) (h : v < 2 ^ (7 * k)) :
    (writeVar v).length ≤ k := by
  induction v using Nat.strong_induction_on generalizing k with
  | _ v ih =>
    rw [writeVar]
    by_cases hz : v / 128 = 0
    · simpa [hz] using hk
    · simp only [hz, if_false, List.length_cons]
      have hk2 : 2 ≤ k := by
        by_contra hlt
        have : k = 1 := by omega
        subst this
        have : v < 128 := by simpa using h
        omega
      have : v / 128 < 2 ^ (7 * (k - 1)) := by
        have hsplit : 2 ^ (7 * k) = 2 ^ (7 * (k - 1)) * 128 := by
          rw [show 7 * k = 7 * (k - 1) + 7 by omega, pow_add]
          norm_num
        rw [hsplit] at h
        apply Nat.div_lt_of_lt_mul
        omega
      have := ih (v / 128) (Nat.div_lt_self (by omega) (by omega)) (k - 1) (by omega) this
      omega

theorem readVarGo_writeVar (T : VarIntTy) (pre : List Nat) (v : Nat) (rest : List Nat)
    (hlen : pre.length + (writeVar v).length ≤ T.maxVarLen) :
    readVarGo T (.Partial pre) (writeVar v ++ rest) =
      some (composeVarInt T.width (pre ++ writeVar v) 0 0, rest) := by
  induction v using Nat.strong_induction_on generalizing pre with
  | _ v ih =>
    by_cases hz : v / 128 = 0
    · rw [writeVar] at hlen ⊢
      simp only [hz, if_true] at hlen ⊢
      have hb : (v % 128) / 128 = 0 := by omega
      simp [readVarGo, PartialVarInt.next, hb]
    · rw [writeVar] at hlen ⊢
      simp only [hz, if_false] at hlen ⊢
      have hb : (v % 128 + 128) / 128 ≠ 0 := by omega
      have hlt : (pre ++ [v % 128 + 128]).length ≠ T.maxVarLen := by
        have h2 : 1 ≤ (writeVar (v / 128)).length := by
          rw [writeVar]
          by_cases h : v / 128 / 128 = 0 <;> simp [h]
        simp only [List.length_append, List.length_cons, List.length_nil] at hlen ⊢
        omega
      simp only [List.cons_append, readVarGo, PartialVarInt.next, hb, if_false, hlt,
        ite_false]
      have := ih (v / 128) (Nat.div_lt_self (by omega) (by omega))
        (pre ++ [v % 128 + 128])
        (by simp only [List.length_append, List.length_cons, List.length_nil]
              at hlen ⊢
            omega)
      rw [List.append_eq, this]
      simp

theorem readVar_writeVar (T : VarIntTy) (v : Nat) (rest : List Nat)
    (hw : v < 2 ^ T.width) (hlen : (writeVar v).length ≤ T.maxVarLen) :
    readVar T (writeVar v ++ rest) = some (v, rest) := by
  rw [readVar, readVarGo_writeVar T [] v rest (by simpa using hlen)]
  simp [composeVarInt_writeVar v hw]

theorem writeVar_length_i32 (v : Nat) (hv : v < 2 ^ 32) : (writeVar v).length ≤ 5 :=
  writeVar_length_le 5 v (by omega) (by norm_num; omega)

theorem writeVar_length_i64 (v : Nat) (hv : v < 2 ^ 64) : (writeVar v).length ≤ 10 :=
  writeVar_length_le 10 v (by omega) (by norm_num; omega)

/-- The unsigned two's-complement bit pattern of a signed `w`-bit machine
integer (the form in which `write_var` processes it, via `unsigned_shr`). -/
def toPattern (w : Nat) (v : Int) : Nat := (v % (2 ^ w : Int)).toNat

/-- The signed value denoted by an unsigned `w`-bit two's-complement
pattern. -/
def fromPattern (w : Nat) (p : Nat) : Int :=
  if p < 2 ^ (w - 1) then (p : Int) else (p : Int) - 2 ^ w

theorem toPattern_lt (w : Nat) (v : Int) : toPattern w v < 2 ^ w := by
  unfold toPattern
  have hpos : (0 : Int) < 2 ^ w := by positivity
  have h0 : (0 : Int) ≤ v % 2 ^ w := Int.emod_nonneg v (by omega)
  have h1 : v % (2 ^ w : Int) < 2 ^ w := Int.emod_lt_of_pos v hpos
  have hc : ((2 ^ w : ℕ) : ℤ) = (2 : ℤ) ^ w := by push_cast; ring
  omega

theorem fromPattern_toPattern (w : Nat) (v : Int) (hw : 1 ≤ w)
    (hlo : -(2 ^ (w - 1)) ≤ v) (hhi : v < 2 ^ (w - 1)) :
    fromPattern w (toPattern w v) = v := by
  have hhalf : (0 : Int) < 2 ^ (w - 1) := by positivity
  have hsplit : (2 : Int) ^ w = 2 ^ (w - 1) * 2 := by
    conv_lhs => rw [show w = (w - 1) + 1 by omega]
    rw [pow_succ]
  have hc : ((2 ^ (w - 1) : ℕ) : ℤ) = (2 : ℤ) ^ (w - 1) := by push_cast; ring
  by_cases h : 0 ≤ v
  · have hvm : v % (2 ^ w : Int) = v := Int.emod_eq_of_lt h (by omega)
    unfold toPattern fromPattern
    rw [hvm]
    have htn : ((v.toNat : ℤ)) = v := Int.toNat_of_nonneg h
    rw [if_pos (by omega)]
    exact htn
  · have e1 : (v + 2 ^ w * 1) % (2 ^ w : Int) = v % 2 ^ w :=
      Int.add_mul_emod_self_left v (2 ^ w) 1
    rw [mul_one] at e1
    have e2 : (v + 2 ^ w) % (2 ^ w : Int) = v + 2 ^ w :=
      Int.emod_eq_of_lt (by omega) (by omega)
    rw [e1] at e2
    unfold toPattern fromPattern
    rw [e2]
    have htn : (((v + 2 ^ w).toNat : ℤ)) = v + 2 ^ w := Int.toNat_of_nonneg (by omega)
    rw [if_neg (by omega)]
    omega

/-- C3: for every signed 32-bit value, `write_var::<i32>` emits at most 5
bytes and `read_var` (driven by `PartialVarInt`) decodes them back to the
same value; likewise for signed 64-bit values with at most 10 bytes.
Values are carried as their unsigned two's-complement bit patterns, exactly
as `write_var`'s `unsigned_shr` loop processes them; `fromPattern`
re-interprets the decoded pattern as the signed value. -/
theorem varint_roundtrip (v32 v64 : Int)
    (h32lo : -(2 ^ 31) ≤ v32) (h32hi : v32 < 2 ^ 31)
    (h64lo : -(2 ^ 63) ≤ v64) (h64hi : v64 < 2 ^ 63) :
    readVar I32 (writeVar (toPattern 32 v32)) = some (toPattern 32 v32, []) ∧
    fromPattern 32 (toPattern 32 v32) = v32 ∧
    (writeVar (toPattern 32 v32)).length ≤ 5 ∧
    readVar I64 (writeVar (toPattern 64 v64)) = some (toPattern 64 v64, []) ∧
    fromPattern 64 (toPattern 64 v64) = v64 ∧
    (writeVar (toPattern 64 v64)).length ≤ 10 := by
  have hlt32 := toPattern_lt 32 v32
  have hlt64 := toPattern_lt 64 v64
  have hlen32 := writeVar_length_i32 _ hlt32
  have hlen64 := writeVar_length_i64 _ hlt64
  refine ⟨?_, ?_, hlen32, ?_, ?_, hlen64⟩
  · have := readVar_writeVar I32 (toPattern 32 v32) [] hlt32 hlen32
    simpa using this
  · exact fromPattern_toPattern 32 v32 (by omega) h32lo h32hi
  · have := readVar_writeVar I64 (toPattern 64 v64) [] hlt64 hlen64
    simpa using this
  · exact fromPattern_toPattern 64 v64 (by omega) h64lo h64hi

/-- Witness for `varint_roundtrip` at `v32 = 3`, `v64 = -1`. -/
theorem varint_roundtrip_witness :
    (-(2 ^ 31) ≤ (3 : Int)) ∧ ((3 : Int) < 2 ^ 31) ∧
    (-(2 ^ 63) ≤ (-1 : Int)) ∧ ((-1 : Int) < 2 ^ 63) ∧
    (readVar I32 (writeVar (toPattern 32 3)) = some (toPattern 32 3, []) ∧
      fromPattern 32 (toPattern 32 3) = 3 ∧
      (writeVar (toPattern 32 3)).length ≤ 5 ∧
      readVar I64 (writeVar (toPattern 64 (-1))) = some (toPattern 64 (-1), []) ∧
      fromPattern 64 (toPattern 64 (-1)) = -1 ∧
      (writeVar (toPattern 64 (-1))).length ≤ 10) :=
  ⟨by norm_num, by norm_num, by norm_num, by norm_num,
    varint_roundtrip 3 (-1) (by norm_num) (by norm_num) (by norm_num) (by norm_num)⟩

/-- C4 (counterexample): decoding an i32 VarInt one byte at a time, the
decoder does NOT wait for a sixth continuation byte: feeding the FIFTH
consecutive byte with the high bit set (here `0x80`) already returns the
`MalformedVarInt` error (`PartialVarInt::next` bails when the accumulated
length reaches `MAX_VAR_LEN = 5` with the continuation bit still set), so
the claim's "exactly when the sixth byte is fed, and not earlier" is
false. -/
theorem varint_overlength_counterexample :
    (PartialVarInt.Partial []).next I32 0x80 = some (.Partial [0x80]) ∧
    (PartialVarInt.Partial [0x80]).next I32 0x80 = some (.Partial [0x80, 0x80]) ∧
    (PartialVarInt.Partial [0x80, 0x80]).next I32 0x80
      = some (.Partial [0x80, 0x80, 0x80]) ∧
    (PartialVarInt.Partial [0x80, 0x80, 0x80]).next I32 0x80
      = some (.Partial [0x80, 0x80, 0x80, 0x80]) ∧
    (PartialVarInt.Partial [0x80, 0x80, 0x80, 0x80]).next I32 0x80 = none := by
  decide

/-- C4 (amended): for any byte with the high (continuation) bit set, the
first four feeds leave the i32 decoder in the `Partial` state and the FIFTH
feed produces the `MalformedVarInt` error — one byte earlier than the claim
states. -/
theorem varint_overlength_fifth_byte (b : Nat) (hb : 128 ≤ b) (hb' : b < 256) :
    (PartialVarInt.Partial []).next I32 b = some (.Partial [b]) ∧
    (PartialVarInt.Partial [b]).next I32 b = some (.Partial [b, b]) ∧
    (PartialVarInt.Partial [b, b]).next I32 b = some (.Partial [b, b, b]) ∧
    (PartialVarInt.Partial [b, b, b]).next I32 b = some (.Partial [b, b, b, b]) ∧
    (PartialVarInt.Partial [b, b, b, b]).next I32 b = none := by
  have hdiv : b / 128 = 1 := by omega
  refine ⟨?_, ?_, ?_, ?_, ?_⟩ <;>
    simp [PartialVarInt.next, hdiv, I32]

/-- Witness for `varint_overlength_fifth_byte` at `b = 0x85`. -/
theorem varint_overlength_fifth_byte_witness :
    (128 ≤ 0x85) ∧ (0x85 < 256) ∧
    ((PartialVarInt.Partial []).next I32 0x85 = some (.Partial [0x85]) ∧
      (PartialVarInt.Partial [0x85]).next I32 0x85 = some (.Partial [0x85, 0x85]) ∧
      (PartialVarInt.Partial [0x85, 0x85]).next I32 0x85
        = some (.Partial [0x85, 0x85, 0x85]) ∧
      (PartialVarInt.Partial [0x85, 0x85, 0x85]).next I32 0x85
        = some (.Partial [0x85, 0x85, 0x85, 0x85]) ∧
      (PartialVarInt.Partial [0x85, 0x85, 0x85, 0x85]).next I32 0x85 = none) :=
  ⟨by norm_num, by norm_num, varint_overlength_fifth_byte 0x85 (by norm_num) (by norm_num)⟩

/-! ## The inbound frame assembler: `PartialPacket` (`mc/net.rs`) -/

/-- `PartialPacket` from `mc/net.rs` (identical in `mc.rs`): the inbound
framing state machine — waiting for the VarInt length prefix, accumulating
the body, or complete. -/
inductive PartialPacket where
  | AwaitingLen (len : PartialVarInt)
  | AwaitingBody (len : Nat) (body : List Nat)
  | Full (body : List Nat)
deriving DecidableEq, Repr

/-- `PartialPacket::new()`. -/
def PartialPacket.new : PartialPacket := .AwaitingLen (.Partial [])

/-- `PartialPacket::next` from `mc/net.rs`: drive the frame assembler with
one input byte.  The completed length (an `i32` pattern) goes through
`try_into::<usize>()`, which fails exactly on negative values, i.e. on
patterns with the sign bit set.  `none` models the propagated error. -/
def PartialPacket.next : PartialPacket → Nat → Option PartialPacket
  | .AwaitingLen len, byte =>
      match len.next I32 byte with
      | none => none
      | some (.Full n) =>
          if n < 2 ^ 31 then some (.AwaitingBody n []) else none
      | some p => some (.AwaitingLen p)
  | .AwaitingBody len body, byte =>
      let body := body ++ [byte]
      if body.length = len then some (.Full body) else some (.AwaitingBody len body)
  | .Full body, _ => some (.Full body)

/-- Feeding a whole byte sequence through `PartialPacket::next`, one byte at
a time, as the claim quantifies over; `none` if any step errors. -/
def runPartialPacket (p : PartialPacket) : List Nat → Option PartialPacket
  | [] => some p
  | b :: rest =>
      match p.next b with
      | none => none
      | some q => runPartialPacket q rest

/-- The invariant that actually holds of the frame assembler: a strict bound
for positive declared lengths (nothing holds for length 0, see the C2
counterexample). -/
def PacketLenInv : PartialPacket → Prop
  | .AwaitingBody len body => 1 ≤ len → body.length < len
  | _ => True

theorem packetLenInv_next (p : PartialPacket) (b : Nat) (q : PartialPacket)
    (hp : PacketLenInv p) (hstep : p.next b = some q) : PacketLenInv q := by
  cases p with
  | AwaitingLen len =>
      simp only [PartialPacket.next] at hstep
      cases hnext : len.next I32 b with
      | none => rw [hnext] at hstep; exact absurd hstep (by simp)
      | some r =>
          rw [hnext] at hstep
          cases r with
          | Partial bs =>
              simp only [Option.some.injEq] at hstep
              subst hstep
              trivial
          | Full n =>
              by_cases hn : n < 2 ^ 31
              · simp only [hn, if_true, Option.some.injEq] at hstep
                subst hstep
                intro h
                simpa using h
              · simp only [if_neg hn] at hstep
                exact Option.noConfusion hstep
  | AwaitingBody len body =>
      simp only [PartialPacket.next] at hstep
      by_cases hlen : (body ++ [b]).length = len
      · simp only [hlen, if_true, Option.some.injEq] at hstep
        subst hstep
        trivial
      · simp only [hlen, if_false, Option.some.injEq] at hstep
        subst hstep
        intro h1
        have hb : body.length < len ∨ ¬(1 ≤ len) := by
          by_cases h : 1 ≤ len
          · exact Or.inl (hp h)
          · exact Or.inr h
        simp only [List.length_append, List.length_cons, List.length_nil] at hlen ⊢
        omega
  | Full body =>
      simp only [PartialPacket.next] at hstep
      simp only [Option.some.injEq] at hstep
      subst hstep
      trivial

theorem packetLenInv_run (bytes : List Nat) :
    ∀ (p q : PartialPacket), PacketLenInv p → runPartialPacket p bytes = some q →
      PacketLenInv q := by
  induction bytes with
  | nil =>
      intro p q hp hrun
      unfold runPartialPacket at hrun
      simp only [Option.some.injEq] at hrun
      subst hrun
      exact hp
  | cons b rest ih =>
      intro p q hp hrun
      unfold runPartialPacket at hrun
      cases hstep : p.next b with
      | none => rw [hstep] at hrun; exact absurd hrun (by simp)
      | some r =>
          rw [hstep] at hrun
          exact ih r q (packetLenInv_next p b r hp hstep) hrun

/-- C2 (counterexample): with a declared body length of zero, the packet
DOES retain more bytes than its declared length: after the length byte `0`
and one further byte, the assembler sits in `AwaitingBody` with declared
length 0 while holding 1 byte (the `body.len() == len` check runs only
after the push, so a zero-length packet never completes and keeps
accumulating). -/
theorem partialPacket_zero_len_counterexample :
    runPartialPacket PartialPacket.new [0, 7]
      = some (.AwaitingBody 0 [7]) ∧ ¬ (([7] : List Nat).length ≤ 0) := by
  decide

/-- C2 (amended): whenever a byte sequence fed one byte at a time through
`PartialPacket::next` leaves the assembler in the `AwaitingBody` state, the
accumulated body holds at most `len` bytes PROVIDED the declared length is
at least 1 (in fact strictly fewer); for a declared length of zero the
bound fails. -/
theorem partialPacket_body_bounded (bytes : List Nat) (len : Nat) (body : List Nat)
    (hrun : runPartialPacket PartialPacket.new bytes = some (.AwaitingBody len body))
    (hlen : 1 ≤ len) : body.length ≤ len := by
  have h := packetLenInv_run bytes PartialPacket.new (.AwaitingBody len body)
    (by trivial) hrun
  have := h hlen
  omega

/-- Witness for `partialPacket_body_bounded`: length prefix 2, one body
byte fed. -/
theorem partialPacket_body_bounded_witness :
    runPartialPacket PartialPacket.new [2, 9]
      = some (.AwaitingBody 2 [9]) ∧ 1 ≤ 2 ∧ ([9] : List Nat).length ≤ 2 :=
  ⟨by decide, by norm_num,
    partialPacket_body_bounded [2, 9] 2 [9] (by decide) (by norm_num)⟩

/-! ## The connection byte pipeline (`Connection::send_packet` / `Connection::tick`,
`mc/net.rs`).

zlib itself (the `flate2` crate) is external to the repository, so the
encoder (`ZlibEncoder::write_all` + `finish`) and the decoder
(`ZlibDecoder` + `read_exact` of a known output size) enter the model as
function parameters `compress : List Nat → List Nat` and
`decompress : Nat → List Nat → Option (List Nat)`; theorems that need the
zlib round-trip take it as a hypothesis on those parameters. -/

/-- The fields of `Connection` that drive the byte pipeline: the in-progress
partial packet, `definitely_modern`, and `compressed`.  (The TCP stream,
`ConnectionState` and player UUID play no role in the framing claims.) -/
structure ConnPipe where
  packet : Option PartialPacket
  definitelyModern : Bool
  compressed : Bool
deriving DecidableEq, Repr

/-- `Connection::send_packet` from `mc/net.rs`, at the byte level, applied
to an already-assembled `data_buf = varint(id) || packet_body`.  Returns
the bytes written to the stream: `varint(len) || buf`.  When compressed,
`buf` is `varint(0) || data_buf` below the threshold
(`COMPRESSION_THRESHOLD = 256`) and `varint(uncompressed_len) ||
zlib(data_buf)` at or above it.  `none` models the `try_into::<i32>()`
failures on oversized lengths. -/
def sendPacketData (compress : List Nat → List Nat) (compressed : Bool)
    (dataBuf : List Nat) : Option (List Nat) :=
  if dataBuf.length < 2 ^ 31 then
    if compressed then
      let buf := if 256 ≤ dataBuf.length
        then writeVar dataBuf.length ++ compress dataBuf
        else writeVar 0 ++ dataBuf
      if buf.length < 2 ^ 31 then some (writeVar buf.length ++ buf) else none
    else some (writeVar dataBuf.length ++ dataBuf)
  else none

/-- The decompression step of `Connection::tick` applied to a completed
frame body: with compression on, read the `uncompressed_length` VarInt
(whose `try_into::<usize>()` fails on negative `i32` patterns); zero means
the remaining bytes are the payload verbatim, otherwise they are inflated
into exactly `len` bytes. -/
def decompressBody (decompress : Nat → List Nat → Option (List Nat))
    (compressed : Bool) (body : List Nat) : Option (List Nat) :=
  if compressed then
    match readVar I32 body with
    | none => none
    | some (len, slice) =>
        if len < 2 ^ 31 then
          if len ≠ 0 then decompress len slice else some slice
        else none
  else some body

/-- Result of running the inbound byte loop of `Connection::tick`:
normal completion with the final pipeline state and the completed
(decompressed) packet payloads in order; the legacy-ping branch (first
byte `0xFE` on a not-definitely-modern connection, which answers and
closes); or a propagated error. -/
inductive FeedResult where
  | ok (st : ConnPipe) (payloads : List (List Nat))
  | legacyPing (request : List Nat)
  | err
deriving DecidableEq, Repr

/-- The `for &byte in read` loop of `Connection::tick` (`mc/net.rs`,
inbound path).  Each completed frame body is decompressed and its payload
`varint(packet_id) || packet_body` emitted; the subsequent
`decode_and_handle_packet` dispatch (which only consumes the payload) is
outside this model.  `definitely_modern` is set on the first non-`0xFE`
byte (setting it again when already set is a no-op, so the model sets it
unconditionally on the non-legacy path). -/
def connFeed (dc : Nat → List Nat → Option (List Nat)) :
    ConnPipe → List Nat → FeedResult
  | st, [] => .ok st []
  | st, b :: rest =>
      if st.definitelyModern = false ∧ b = 0xfe then .legacyPing rest
      else
        match (st.packet.getD PartialPacket.new).next b with
        | none => .err
        | some (.Full body) =>
            match decompressBody dc st.compressed body with
            | none => .err
            | some payload =>
                match connFeed dc ⟨none, true, st.compressed⟩ rest with
                | .ok st2 payloads => .ok st2 (payload :: payloads)
                | other => other
        | some p => connFeed dc ⟨some p, true, st.compressed⟩ rest

theorem connFeed_cons (dc : Nat → List Nat → Option (List Nat))
    (pkt : Option PartialPacket) (c : Bool) (b : Nat) (rest : List Nat) :
    connFeed dc ⟨pkt, true, c⟩ (b :: rest)
      = match (pkt.getD PartialPacket.new).next b with
        | none => .err
        | some (.Full body) =>
            match decompressBody dc c body with
            | none => .err
            | some payload =>
                match connFeed dc ⟨none, true, c⟩ rest with
                | .ok st2 payloads => .ok st2 (payload :: payloads)
                | other => other
        | some p => connFeed dc ⟨some p, true, c⟩ rest := by
  rw [connFeed]
  simp only [Bool.true_eq_false, false_and, if_false]

theorem connFeed_writeVar (dc : Nat → List Nat → Option (List Nat)) (c : Bool) (v : Nat) :
    ∀ (pre : List Nat) (pkt : Option PartialPacket) (rest : List Nat),
      pkt.getD PartialPacket.new = .AwaitingLen (.Partial pre) →
      pre.length + (writeVar v).length ≤ 5 →
      composeVarInt 32 (pre ++ writeVar v) 0 0 < 2 ^ 31 →
      connFeed dc ⟨pkt, true, c⟩ (writeVar v ++ rest)
        = connFeed dc
            ⟨some (.AwaitingBody (composeVarInt 32 (pre ++ writeVar v) 0 0) []), true, c⟩
            rest := by
  induction v using Nat.strong_induction_on with
  | _ v ih =>
    intro pre pkt rest hpkt hlen hval
    by_cases hz : v / 128 = 0
    · rw [writeVar] at hlen hval ⊢
      simp only [hz, if_true] at hlen hval ⊢
      have hb : (v % 128) / 128 = 0 := by omega
      rw [List.singleton_append, connFeed_cons, hpkt]
      simp only [PartialPacket.next, PartialVarInt.next, hb, if_true, I32,
        List.nil_append]
      rw [if_pos hval]
    · rw [writeVar] at hlen hval ⊢
      simp only [hz, if_false] at hlen hval ⊢
      have hb : (v % 128 + 128) / 128 ≠ 0 := by omega
      have h2 : 1 ≤ (writeVar (v / 128)).length := by
        rw [writeVar]
        by_cases h : v / 128 / 128 = 0 <;> simp [h]
      have hlt : ¬ (pre ++ [v % 128 + 128]).length = 5 := by
        simp only [List.length_append, List.length_cons, List.length_nil] at hlen ⊢
        omega
      rw [List.cons_append, connFeed_cons, hpkt]
      simp only [PartialPacket.next, PartialVarInt.next, hb, if_false, I32, hlt,
        ite_false]
      have := ih (v / 128) (Nat.div_lt_self (by omega) (by omega))
        (pre ++ [v % 128 + 128]) (some (.AwaitingLen (.Partial (pre ++ [v % 128 + 128]))))
        rest (by simp)
        (by simp only [List.length_append, List.length_cons, List.length_nil] at hlen ⊢
            omega)
        (by rw [List.append_assoc, List.singleton_append]; exact hval)
      rw [this, List.append_assoc, List.singleton_append]

theorem connFeed_body (dc : Nat → List Nat → Option (List Nat)) (c : Bool) (L : Nat)
    (xs : List Nat) :
    ∀ (body : List Nat) (rest : List Nat), xs ≠ [] → body.length + xs.length = L →
      connFeed dc ⟨some (.AwaitingBody L body), true, c⟩ (xs ++ rest)
        = match decompressBody dc c (body ++ xs) with
          | none => .err
          | some payload =>
              match connFeed dc ⟨none, true, c⟩ rest with
              | .ok st2 payloads => .ok st2 (payload :: payloads)
              | other => other := by
  induction xs with
  | nil => intro body rest hne; exact absurd rfl hne
  | cons x xs ihx =>
    intro body rest _ hsum
    cases xs with
    | nil =>
        have hfull : (body ++ [x]).length = L := by
          simpa using hsum
        rw [List.singleton_append, connFeed_cons]
        simp only [Option.getD_some, PartialPacket.next, hfull, if_true]
    | cons y ys =>
        have hnotfull : ¬ (body ++ [x]).length = L := by
          simp only [List.length_append, List.length_cons, List.length_nil] at hsum ⊢
          omega
        rw [List.cons_append, connFeed_cons]
        simp only [Option.getD_some, PartialPacket.next, hnotfull, ite_false]
        have := ihx (body ++ [x]) rest (by simp)
          (by simp only [List.length_append, List.length_cons, List.length_nil]
                at hsum ⊢
              omega)
        rw [this, List.append_assoc, List.singleton_append]

theorem connFeed_body_exact (dc : Nat → List Nat → Option (List Nat)) (c : Bool)
    (L : Nat) (xs body : List Nat) (hne : xs ≠ []) (hsum : body.length + xs.length = L) :
    connFeed dc ⟨some (.AwaitingBody L body), true, c⟩ xs
      = match decompressBody dc c (body ++ xs) with
        | none => .err
        | some payload => .ok ⟨none, true, c⟩ [payload] := by
  have h := connFeed_body dc c L xs body [] hne hsum
  rw [List.append_nil] at h
  rw [h]
  cases decompressBody dc c (body ++ xs) <;> simp [connFeed]

/-- C1: outbound packets on a compressed connection frame as the claim
states — below the 256-byte threshold the wire frame is
`varint(total_len) || varint(0) || varint(id) || body` with the data
unchanged, at or above it it is `varint(total_len) ||
varint(uncompressed_len) || zlib(varint(id) || body)` — and feeding the
frame byte-by-byte back through the inbound loop of `Connection::tick`
(with `compressed == true`) recovers exactly `varint(id) || body` as the
single completed payload and returns the pipeline to its idle state.
The zlib round-trip for this payload is a hypothesis on the `compress` /
`decompress` parameters. -/
theorem compressed_frame_roundtrip (compress : List Nat → List Nat)
    (decompress : Nat → List Nat → Option (List Nat)) (idPat : Nat) (body : List Nat)
    (_hid : idPat < 2 ^ 32)
    (hdlen : (writeVar idPat ++ body).length < 2 ^ 31)
    (hzip : 256 ≤ (writeVar idPat ++ body).length →
      decompress (writeVar idPat ++ body).length (compress (writeVar idPat ++ body))
        = some (writeVar idPat ++ body))
    (hclen : 256 ≤ (writeVar idPat ++ body).length →
      (writeVar (writeVar idPat ++ body).length
          ++ compress (writeVar idPat ++ body)).length < 2 ^ 31) :
    ∃ frame, sendPacketData compress true (writeVar idPat ++ body) = some frame ∧
      ((writeVar idPat ++ body).length < 256 →
        frame = writeVar ((writeVar idPat ++ body).length + 1)
          ++ writeVar 0 ++ (writeVar idPat ++ body)) ∧
      (256 ≤ (writeVar idPat ++ body).length →
        frame = writeVar (writeVar (writeVar idPat ++ body).length
            ++ compress (writeVar idPat ++ body)).length
          ++ writeVar (writeVar idPat ++ body).length
          ++ compress (writeVar idPat ++ body)) ∧
      connFeed decompress ⟨none, true, true⟩ frame
        = .ok ⟨none, true, true⟩ [writeVar idPat ++ body] := by
  have hw0 : writeVar 0 = [0] := by simp [writeVar]
  set d := writeVar idPat ++ body with hd
  by_cases hth : 256 ≤ d.length
  · -- compressed branch
    have hbuflen := hclen hth
    refine ⟨writeVar (writeVar d.length ++ compress d).length
        ++ writeVar d.length ++ compress d, ?_, ?_, ?_, ?_⟩
    · unfold sendPacketData
      rw [if_pos hdlen, if_pos rfl, if_pos hth, if_pos hbuflen, List.append_assoc]
    · intro h; omega
    · intro _; rfl
    · rw [List.append_assoc]
      set buf := writeVar d.length ++ compress d with hbuf
      have hbufne : buf ≠ [] := by
        rw [hbuf, writeVar]
        by_cases h : d.length / 128 = 0 <;> simp [h]
      have hlen5 : (writeVar buf.length).length ≤ 5 := writeVar_length_i32 _ (by omega)
      have hcomp : composeVarInt 32 ([] ++ writeVar buf.length) 0 0 = buf.length := by
        rw [List.nil_append]
        exact composeVarInt_writeVar _ (by omega)
      rw [connFeed_writeVar decompress true buf.length [] none buf
          (by simp [PartialPacket.new]) (by simpa using hlen5) (by rw [hcomp]; omega)]
      rw [hcomp]
      rw [connFeed_body_exact decompress true buf.length buf [] hbufne (by simp)]
      have hdec : decompressBody decompress true ([] ++ buf) = some d := by
        simp only [List.nil_append, hbuf, decompressBody, if_pos rfl]
        rw [readVar_writeVar I32 d.length (compress d)
          (show d.length < 2 ^ I32.width by simp only [I32]; omega)
          (show (writeVar d.length).length ≤ I32.maxVarLen by
            simp only [I32]
            exact writeVar_length_i32 _ (by omega))]
        have h0 : d.length ≠ 0 := by omega
        have h1 : d.length < 2147483648 := by omega
        simp [h1, h0, hzip hth]
      rw [hdec]
  · -- stored (below-threshold) branch
    push_neg at hth
    refine ⟨writeVar (d.length + 1) ++ writeVar 0 ++ d, ?_, ?_, ?_, ?_⟩
    · unfold sendPacketData
      rw [if_pos hdlen, if_pos rfl, if_neg (show ¬ 256 ≤ d.length by omega)]
      rw [if_pos (show (writeVar 0 ++ d).length < 2 ^ 31 by simp [hw0]; omega)]
      rw [hw0]
      simp
    · intro _; rfl
    · intro h; omega
    · have hlen5 : (writeVar (d.length + 1)).length ≤ 5 := writeVar_length_i32 _ (by omega)
      have hcomp : composeVarInt 32 ([] ++ writeVar (d.length + 1)) 0 0 = d.length + 1 := by
        rw [List.nil_append]
        exact composeVarInt_writeVar _ (by omega)
      rw [List.append_assoc, connFeed_writeVar decompress true (d.length + 1) [] none
          (writeVar 0 ++ d) (by simp [PartialPacket.new]) (by simpa using hlen5)
          (by rw [hcomp]; omega)]
      rw [hcomp]
      rw [connFeed_body_exact decompress true (d.length + 1) (writeVar 0 ++ d) []
          (by simp [hw0]) (by simp [hw0])]
      have hdec : decompressBody decompress true ([] ++ (writeVar 0 ++ d)) = some d := by
        simp only [List.nil_append, decompressBody, if_pos rfl]
        rw [readVar_writeVar I32 0 d (by simp [I32]) (by simp [I32, hw0])]
        simp
      rw [hdec]

/-- Witness for `compressed_frame_roundtrip`: packet id `0x24` with a
299-byte body (total 300 ≥ 256, exercising the compressed branch), with
`compress` instantiated as the identity and `decompress` as the matching
prefix reader. -/
theorem compressed_frame_roundtrip_witness :
    (0x24 < 2 ^ 32) ∧
    ((writeVar 0x24 ++ List.replicate 299 7).length < 2 ^ 31) ∧
    (∃ frame,
      sendPacketData id true (writeVar 0x24 ++ List.replicate 299 7) = some frame ∧
      ((writeVar 0x24 ++ List.replicate 299 7).length < 256 →
        frame = writeVar ((writeVar 0x24 ++ List.replicate 299 7).length + 1)
          ++ writeVar 0 ++ (writeVar 0x24 ++ List.replicate 299 7)) ∧
      (256 ≤ (writeVar 0x24 ++ List.replicate 299 7).length →
        frame = writeVar (writeVar (writeVar 0x24 ++ List.replicate 299 7).length
            ++ id (writeVar 0x24 ++ List.replicate 299 7)).length
          ++ writeVar (writeVar 0x24 ++ List.replicate 299 7).length
          ++ id (writeVar 0x24 ++ List.replicate 299 7)) ∧
      connFeed (fun n l => if l.length = n then some l else none) ⟨none, true, true⟩ frame
        = .ok ⟨none, true, true⟩ [writeVar 0x24 ++ List.replicate 299 7]) := by
  have hw : writeVar 0x24 = [0x24] := by simp [writeVar]
  have hX : (writeVar 0x24 ++ List.replicate 299 7).length = 300 := by
    rw [hw]
    simp only [List.length_append, List.length_cons, List.length_nil,
      List.length_replicate]
  refine ⟨by norm_num, by rw [hX]; norm_num, ?_⟩
  refine compressed_frame_roundtrip id (fun n l => if l.length = n then some l else none)
    0x24 (List.replicate 299 7) (by norm_num) (by rw [hX]; norm_num) ?_ ?_
  · intro _
    beta_reduce
    rw [id_eq, if_pos rfl]
  · intro _
    rw [id_eq, List.length_append, hX]
    have h5 := writeVar_length_i32 300 (by norm_num)
    omega

/-! ## Login and the compression handoff (`mc/net/login.rs`) -/

/-- Big-endian byte serialisation of the low `8 * k` bits of `v`
(`byteorder`'s `write_u64::<BigEndian>` etc.). -/
def beBytes (k : Nat) (v : Nat) : List Nat :=
  match k with
  | 0 => []
  | k + 1 => (v / 2 ^ (8 * k)) % 256 :: beBytes k v

/-- `PacketWriteExt::write_str`: VarInt byte length followed by the bytes.
Rust strings are carried as their UTF-8 bytes, so `str::len()` is the list
length; `none` models the `try_into::<i32>()` failure. -/
def writeStr (s : List Nat) : Option (List Nat) :=
  if s.length < 2 ^ 31 then some (writeVar s.length ++ s) else none

/-- `Connection::COMPRESSION_THRESHOLD`. -/
def compressionThreshold : Nat := 256

/-- The wire frame `send_packet` produces while `compressed == false`:
`varint(len) || data_buf`. -/
def uncompressedFrame (d : List Nat) : List Nat := writeVar d.length ++ d

/-- The inner envelope `send_packet` produces while `compressed == true`. -/
def compressedEnvelope (compress : List Nat → List Nat) (d : List Nat) : List Nat :=
  if 256 ≤ d.length then writeVar d.length ++ compress d else writeVar 0 ++ d

/-- The wire frame `send_packet` produces while `compressed == true`. -/
def compressedFrame (compress : List Nat → List Nat) (d : List Nat) : List Nat :=
  writeVar (compressedEnvelope compress d).length ++ compressedEnvelope compress d

theorem sendPacketData_false_eq (compress : List Nat → List Nat) (d f : List Nat)
    (h : sendPacketData compress false d = some f) : f = uncompressedFrame d := by
  unfold sendPacketData at h
  by_cases h1 : d.length < 2 ^ 31
  · rw [if_pos h1, if_neg Bool.false_ne_true] at h
    simp only [Option.some.injEq] at h
    rw [← h, uncompressedFrame]
  · rw [if_neg h1] at h
    exact Option.noConfusion h

theorem sendPacketData_true_eq (compress : List Nat → List Nat) (d f : List Nat)
    (h : sendPacketData compress true d = some f) : f = compressedFrame compress d := by
  unfold sendPacketData at h
  by_cases h1 : d.length < 2 ^ 31
  · rw [if_pos h1, if_pos rfl] at h
    by_cases h2 : (if 256 ≤ d.length then writeVar d.length ++ compress d
        else writeVar 0 ++ d).length < 2 ^ 31
    · rw [if_pos h2] at h
      simp only [Option.some.injEq] at h
      rw [← h, compressedFrame, compressedEnvelope]
    · rw [if_neg h2] at h
      exact Option.noConfusion h
  · rw [if_neg h1] at h
    exact Option.noConfusion h

/-- `LoginStart::handle` (`mc/net/login.rs`) together with the
`setup::set_up` play-login sequence it invokes (`mc/net/play/setup.rs`),
reduced to its outbound sends: SetCompression(256) is sent first, then
`connection.compressed = true`, then LoginSuccess (uuid, name, empty
property list), then PlayLogin (id `0x24`) and the brand PluginMessage
(id `0x15`).  The PlayLogin and PluginMessage bodies contain NBT and
floating-point fields, so their bytes enter the model as parameters.
Returns the final `compressed` flag and the trace of
`(compressed-flag at the time of the send, wire frame)` pairs. -/
def loginStartHandle (compress : List Nat → List Nat)
    (uuidHigh uuidLow : Nat) (name playLoginBody brandBody : List Nat)
    (c0 : Bool) : Option (Bool × List (Bool × List Nat)) :=
  let scData := writeVar 0x03 ++ writeVar compressionThreshold
  match sendPacketData compress c0 scData with
  | none => none
  | some f1 =>
    match writeStr name with
    | none => none
    | some nameB =>
      let lsData := writeVar 0x02 ++ (beBytes 8 uuidHigh ++ beBytes 8 uuidLow)
        ++ nameB ++ writeVar 0
      match sendPacketData compress true lsData with
      | none => none
      | some f2 =>
        let plData := writeVar 0x24 ++ playLoginBody
        match sendPacketData compress true plData with
        | none => none
        | some f3 =>
          let brData := writeVar 0x15 ++ brandBody
          match sendPacketData compress true brData with
          | none => none
          | some f4 => some (true, [(c0, f1), (true, f2), (true, f3), (true, f4)])

/-- C7: on a successful login start (starting from `compressed == false`),
the SetCompression(256) packet itself goes out in the uncompressed
envelope; the `compressed` flag transitions `false → true` exactly once
(the trace of flag values at each send is `[false, true, true, true]` and
the final flag is `true`; the handler's only write to the flag is
`compressed = true`); and every subsequent packet — LoginSuccess, the
play-login sequence, and, by the final conjunct, any packet sent while
`compressed == true` — uses the compressed envelope. -/
theorem login_compression_handoff (compress : List Nat → List Nat)
    (uuidHigh uuidLow : Nat) (name playLoginBody brandBody : List Nat)
    (c' : Bool) (tr : List (Bool × List Nat))
    (h : loginStartHandle compress uuidHigh uuidLow name playLoginBody brandBody false
      = some (c', tr)) :
    c' = true ∧
    tr.map Prod.fst = [false, true, true, true] ∧
    (∃ nameB, writeStr name = some nameB ∧
      tr.map Prod.snd =
        [uncompressedFrame (writeVar 0x03 ++ writeVar compressionThreshold),
          compressedFrame compress (writeVar 0x02
            ++ (beBytes 8 uuidHigh ++ beBytes 8 uuidLow) ++ nameB ++ writeVar 0),
          compressedFrame compress (writeVar 0x24 ++ playLoginBody),
          compressedFrame compress (writeVar 0x15 ++ brandBody)]) ∧
    (∀ d f, sendPacketData compress true d = some f → f = compressedFrame compress d) := by
  simp only [loginStartHandle] at h
  cases h1 : sendPacketData compress false (writeVar 0x03 ++ writeVar compressionThreshold)
      with
  | none => simp only [h1] at h; exact Option.noConfusion h
  | some f1 =>
    simp only [h1] at h
    cases h2 : writeStr name with
    | none => simp only [h2] at h; exact Option.noConfusion h
    | some nameB =>
      simp only [h2] at h
      cases h3 : sendPacketData compress true (writeVar 0x02
          ++ (beBytes 8 uuidHigh ++ beBytes 8 uuidLow) ++ nameB ++ writeVar 0) with
      | none => simp only [h3] at h; exact Option.noConfusion h
      | some f2 =>
        simp only [h3] at h
        cases h4 : sendPacketData compress true (writeVar 0x24 ++ playLoginBody) with
        | none => simp only [h4] at h; exact Option.noConfusion h
        | some f3 =>
          simp only [h4] at h
          cases h5 : sendPacketData compress true (writeVar 0x15 ++ brandBody) with
          | none => simp only [h5] at h; exact Option.noConfusion h
          | some f4 =>
            simp only [h5, Option.some.injEq, Prod.mk.injEq] at h
            obtain ⟨hc, htr⟩ := h
            subst hc
            subst htr
            refine ⟨rfl, rfl, ⟨nameB, rfl, ?_⟩, fun d f hf => sendPacketData_true_eq _ _ _ hf⟩
            simp only [List.map_cons, List.map_nil]
            rw [sendPacketData_false_eq _ _ _ h1, sendPacketData_true_eq _ _ _ h3,
              sendPacketData_true_eq _ _ _ h4, sendPacketData_true_eq _ _ _ h5]

/-- Witness for `login_compression_handoff`: identity `compress`, nil UUID,
username bytes `"a"`, empty play-login and brand bodies. -/
theorem login_compression_handoff_witness :
    loginStartHandle id 0 0 [97] [] [] false
      = some (true,
        [(false, [3, 3, 128, 2]),
          (true, [21, 0, 2, 0, 0, 0, 0, 0, 0, 0, 0, 0, 0, 0, 0, 0, 0, 0, 0, 1, 97, 0]),
          (true, [2, 0, 36]),
          (true, [2, 0, 21])]) ∧
    ((true : Bool) = true ∧
      ([(false, [3, 3, 128, 2]),
          (true, [21, 0, 2, 0, 0, 0, 0, 0, 0, 0, 0, 0, 0, 0, 0, 0, 0, 0, 0, 1, 97, 0]),
          (true, [2, 0, 36]),
          (true, [2, 0, 21])] : List (Bool × List Nat)).map Prod.fst
        = [false, true, true, true] ∧
      (∃ nameB, writeStr [97] = some nameB ∧
        ([(false, [3, 3, 128, 2]),
            (true, [21, 0, 2, 0, 0, 0, 0, 0, 0, 0, 0, 0, 0, 0, 0, 0, 0, 0, 0, 1, 97, 0]),
            (true, [2, 0, 36]),
            (true, [2, 0, 21])] : List (Bool × List Nat)).map Prod.snd =
          [uncompressedFrame (writeVar 0x03 ++ writeVar compressionThreshold),
            compressedFrame id (writeVar 0x02
              ++ (beBytes 8 0 ++ beBytes 8 0) ++ nameB ++ writeVar 0),
            compressedFrame id (writeVar 0x24 ++ []),
            compressedFrame id (writeVar 0x15 ++ [])]) ∧
      (∀ d f, sendPacketData id true d = some f → f = compressedFrame id d)) := by
  have hrun : loginStartHandle id 0 0 [97] [] [] false
      = some (true,
        [(false, [3, 3, 128, 2]),
          (true, [21, 0, 2, 0, 0, 0, 0, 0, 0, 0, 0, 0, 0, 0, 0, 0, 0, 0, 0, 1, 97, 0]),
          (true, [2, 0, 36]),
          (true, [2, 0, 21])]) := by
    simp [loginStartHandle, sendPacketData, writeStr, writeVar, beBytes,
      compressionThreshold]
  exact ⟨hrun, login_compression_handoff id 0 0 [97] [] [] true _ hrun⟩

/-! ## Status packets and the ping handler (`mc.rs`, `mc/pre_login.rs`) -/

/-- Read a `k`-byte big-endian unsigned pattern (`byteorder`'s
`read_u64::<BigEndian>` etc.), returning the value and the unread rest. -/
def readBEPattern (k : Nat) (input : List Nat) : Option (Nat × List Nat) :=
  match k, input with
  | 0, input => some (0, input)
  | _ + 1, [] => none
  | k + 1, b :: rest =>
      match readBEPattern k rest with
      | none => none
      | some (v, rem) => some (b % 256 * 2 ^ (8 * k) + v, rem)

/-- `read_i64::<BigEndian>`: 8 bytes, big-endian, re-interpreted as a
signed 64-bit value. -/
def readI64BE (input : List Nat) : Option (Int × List Nat) :=
  match readBEPattern 8 input with
  | none => none
  | some (p, rest) => some (fromPattern 64 p, rest)

/-- `write_i64::<BigEndian>`: 8 bytes, big-endian, of the two's-complement
pattern. -/
def writeI64BE (v : Int) : List Nat := beBytes 8 (toPattern 64 v)

theorem readBEPattern_beBytes (k : Nat) :
    ∀ (v : Nat) (rest : List Nat),
      readBEPattern k (beBytes k v ++ rest) = some (v % 2 ^ (8 * k), rest) := by
  induction k with
  | zero => intro v rest; simp [beBytes, readBEPattern, Nat.mod_one]
  | succ k ih =>
      intro v rest
      rw [beBytes, List.cons_append, readBEPattern, ih]
      have hb : v / 2 ^ (8 * k) % 256 % 256 = v / 2 ^ (8 * k) % 256 :=
        Nat.mod_mod_of_dvd _ (by norm_num)
      have hsplit : v % 2 ^ (8 * (k + 1)) = v / 2 ^ (8 * k) % 256 * 2 ^ (8 * k)
          + v % 2 ^ (8 * k) := by
        have h1 : (2 : Nat) ^ (8 * (k + 1)) = 2 ^ (8 * k) * 256 := by
          rw [show 8 * (k + 1) = 8 * k + 8 by ring, pow_add]
          norm_num
        rw [h1, Nat.mod_mul]
        ring
      rw [hsplit]
      simp [hb]

theorem readI64BE_writeI64BE (v : Int) (rest : List Nat)
    (hlo : -(2 ^ 63) ≤ v) (hhi : v < 2 ^ 63) :
    readI64BE (writeI64BE v ++ rest) = some (v, rest) := by
  rw [writeI64BE, readI64BE, readBEPattern_beBytes,
    Nat.mod_eq_of_lt (show toPattern 64 v < 2 ^ (8 * 8) from toPattern_lt 64 v)]
  simp only [fromPattern_toPattern 64 v (by omega) (by simpa using hlo)
    (by simpa using hhi)]

/-- The server-bound status packets (`mc/pre_login.rs` / `mc/status.rs`):
`StatusRequest` (empty) and `PingRequest` with its big-endian `i64`
payload. -/
inductive StatusPacketIn where
  | StatusRequest
  | PingRequest (payload : Int)
deriving DecidableEq, Repr

/-- The client-bound status packets the handler can send: the listing
response (whose JSON body is not at issue in the ping claim) and
`PingResponse` with its `i64` payload. -/
inductive StatusPacketOut where
  | StatusResponse
  | PingResponse (payload : Int)
deriving DecidableEq, Repr

/-- What one call of the status-packet handler does: the packets it sends,
and whether it closes the connection afterwards. -/
structure StatusHandleResult where
  sends : List StatusPacketOut
  closesConnection : Bool
deriving DecidableEq, Repr

/-- `Connection::handle_status_packet` from `mc.rs` (lines 227–246):
`StatusRequest` answers with a `StatusResponse` carrying the listing;
`PingRequest(p)` answers with `PingResponse(p)`.  In BOTH arms the function
then simply returns: the `PingRequest` arm carries the source comment
`// TODO: Close the connection` but performs no close, hence
`closesConnection := false`. -/
def handleStatusPacket : StatusPacketIn → StatusHandleResult
  | .StatusRequest => ⟨[.StatusResponse], false⟩
  | .PingRequest payload => ⟨[.PingResponse payload], false⟩

/-- C9: evaluation of the code at the claim's failing input.  For every
`PingRequest` payload the handler sends exactly one `PingResponse` with
the SAME payload (that half of the claim holds, and the payload survives
the wire round-trip), but `closesConnection = false`: the code does NOT
close the connection after sending — its own `// TODO: Close the
connection` comment marks the missing close the claim (and spec) demand. -/
theorem ping_request_echo_no_close (p : Int) (hlo : -(2 ^ 63) ≤ p) (hhi : p < 2 ^ 63) :
    handleStatusPacket (.PingRequest p) = ⟨[.PingResponse p], false⟩ ∧
    readI64BE (writeI64BE p) = some (p, []) := by
  refine ⟨rfl, ?_⟩
  have := readI64BE_writeI64BE p [] hlo hhi
  simpa using this

/-- Witness for `ping_request_echo_no_close` at payload 7. -/
theorem ping_request_echo_no_close_witness :
    (-(2 ^ 63) ≤ (7 : Int)) ∧ ((7 : Int) < 2 ^ 63) ∧
    (handleStatusPacket (.PingRequest 7) = ⟨[.PingResponse 7], false⟩ ∧
      readI64BE (writeI64BE 7) = some (7, [])) :=
  ⟨by norm_num, by norm_num,
    ping_request_echo_no_close 7 (by norm_num) (by norm_num)⟩

/-! ## The registry (`mc/registry.rs`) -/

/-- `Identifier` (`mc::Identifier`): a namespaced resource name
`ns:path`; `namespace` is a reserved word in Lean, hence `ns`.  Only its
structural equality matters for the registry claims. -/
structure Identifier where
  ns : String
  path : String
deriving DecidableEq, Repr

/-- `Registry::register` (`mc/registry.rs`): panic (`none`) when
`entries.contains_key(&key)`; the check precedes the insert, so on the
panic path the map is unchanged.  The `HashMap` content is carried as the
list of entries in insertion order (the map itself retains no order — see
`serializeRegistry`). -/
def registryRegister {T : Type} (entries : List (Identifier × T)) (key : Identifier)
    (value : T) : Option (List (Identifier × T)) :=
  if entries.any (fun e => e.1 = key) then none
  else some (entries ++ [(key, value)])

/-- The `value` list built by `impl Serialize for Registry`
(`entries.iter().enumerate().filter_map(...)`): each entry is paired with
its enumeration index as the `i32` id, dropped when the index does not fit
an `i32`.  Rust's `HashMap` iteration order is unspecified (randomised per
process by `RandomState`), so the iteration list handed to this function is
an arbitrary permutation of the registered entries. -/
def serializeRegistryGo {T : Type} (i : Nat) :
    List (Identifier × T) → List (Identifier × Int × T)
  | [] => []
  | (name, elem) :: rest =>
      if i < 2 ^ 31 then (name, (i : Int), elem) :: serializeRegistryGo (i + 1) rest
      else serializeRegistryGo (i + 1) rest

/-- `impl Serialize for Registry`, starting the enumeration at 0. -/
def serializeRegistry {T : Type} (iter : List (Identifier × T)) :
    List (Identifier × Int × T) :=
  serializeRegistryGo 0 iter

/-- C8 (counterexample): the claim — that for any iteration order the code
may produce (any permutation of the registered entries, since `HashMap`
iteration order is unspecified), the i-th INSERTED entry is serialized
with id i — is false: with entries inserted in the order `a, b` and the
map iterated as `b, a`, entry `a` (insertion index 0) is serialized with
id 1. -/
theorem registry_insertion_order_counterexample :
    ¬ (∀ (entries iter : List (Identifier × Nat)), iter.Perm entries →
        ∀ (i : Nat) (k : Identifier) (v : Nat), entries.get? i = some (k, v) →
          (k, (i : Int), v) ∈ serializeRegistry iter) := by
  intro h
  have := h [(⟨"minecraft", "a"⟩, 0), (⟨"minecraft", "b"⟩, 1)]
    [(⟨"minecraft", "b"⟩, 1), (⟨"minecraft", "a"⟩, 0)]
    (by decide) 0 ⟨"minecraft", "a"⟩ 0 (by decide)
  revert this
  decide

theorem serializeRegistryGo_ids {T : Type} :
    ∀ (iter : List (Identifier × T)) (i : Nat), i + iter.length ≤ 2 ^ 31 →
      (serializeRegistryGo i iter).map (fun e => e.2.1)
        = (List.range' i iter.length).map Int.ofNat
  | [], i, _ => by simp [serializeRegistryGo, List.range']
  | (name, elem) :: rest, i, h => by
      have hi : i < 2 ^ 31 := by
        simp only [List.length_cons] at h
        omega
      rw [serializeRegistryGo, if_pos hi, List.map_cons,
        serializeRegistryGo_ids rest (i + 1)
          (by simp only [List.length_cons] at h; omega)]
      simp [List.range'_succ]

/-- C8 (amended): serialization assigns the numeric ids densely as
`[0, n)` in the order the registry's `HashMap` happens to be iterated —
which is unspecified and need not be insertion order (see the
counterexample) — and registering an already-present key panics with the
registry unchanged, while a fresh key is appended. -/
theorem registry_dense_ids_and_duplicates {T : Type}
    (iter entries : List (Identifier × T)) (key : Identifier) (value : T)
    (hlen : iter.length ≤ 2 ^ 31) :
    (serializeRegistry iter).map (fun e => e.2.1)
      = (List.range iter.length).map Int.ofNat ∧
    (entries.any (fun e => e.1 = key) →
      registryRegister entries key value = none) ∧
    (¬ entries.any (fun e => e.1 = key) →
      registryRegister entries key value = some (entries ++ [(key, value)])) := by
  refine ⟨?_, ?_, ?_⟩
  · rw [serializeRegistry, serializeRegistryGo_ids iter 0 (by omega), List.range_eq_range']
  · intro hdup
    rw [registryRegister, if_pos hdup]
  · intro hfresh
    rw [registryRegister, if_neg hfresh]

/-- Witness for `registry_dense_ids_and_duplicates` on a two-entry
registry with a duplicate re-registration of `minecraft:a`. -/
theorem registry_dense_ids_and_duplicates_witness :
    (([(⟨"minecraft", "a"⟩, 0), (⟨"minecraft", "b"⟩, 1)]
        : List (Identifier × Nat)).length ≤ 2 ^ 31) ∧
    ((serializeRegistry [(⟨"minecraft", "a"⟩, (0 : Nat)), (⟨"minecraft", "b"⟩, 1)]).map
        (fun e => e.2.1)
      = (List.range ([(⟨"minecraft", "a"⟩, (0 : Nat)),
          (⟨"minecraft", "b"⟩, 1)] : List (Identifier × Nat)).length).map
          Int.ofNat ∧
    (([(⟨"minecraft", "a"⟩, (0 : Nat)), (⟨"minecraft", "b"⟩, 1)]
        : List (Identifier × Nat)).any (fun e => e.1 = ⟨"minecraft", "a"⟩) →
      registryRegister [(⟨"minecraft", "a"⟩, (0 : Nat)), (⟨"minecraft", "b"⟩, 1)]
        ⟨"minecraft", "a"⟩ 9 = none) ∧
    (¬ ([(⟨"minecraft", "a"⟩, (0 : Nat)), (⟨"minecraft", "b"⟩, 1)]
        : List (Identifier × Nat)).any (fun e => e.1 = ⟨"minecraft", "a"⟩) →
      registryRegister [(⟨"minecraft", "a"⟩, (0 : Nat)), (⟨"minecraft", "b"⟩, 1)]
        ⟨"minecraft", "a"⟩ 9
        = some ([(⟨"minecraft", "a"⟩, 0), (⟨"minecraft", "b"⟩, 1)]
          ++ [(⟨"minecraft", "a"⟩, 9)]))) :=
  ⟨by norm_num,
    registry_dense_ids_and_duplicates
      [(⟨"minecraft", "a"⟩, 0), (⟨"minecraft", "b"⟩, 1)]
      [(⟨"minecraft", "a"⟩, 0), (⟨"minecraft", "b"⟩, 1)]
      ⟨"minecraft", "a"⟩ 9 (by norm_num)⟩

/-! ## Field readers and the two `LoginStart::read` layouts
(`mc/packet_io.rs`, `mc/net/login.rs`, `mc/login.rs`) -/

/-- `read_u8`: one byte from the stream; `none` on end of input. -/
def readU8 (input : List Nat) : Option (Nat × List Nat) :=
  match input with
  | [] => none
  | b :: rest => some (b, rest)

/-- `PacketReadExt::read_bool`: one byte; any non-zero is true. -/
def readBool (input : List Nat) : Option (Bool × List Nat) :=
  match readU8 input with
  | none => none
  | some (b, rest) => some (b ≠ 0, rest)

/-- `Read::read_exact` into a `k`-byte buffer. -/
def readExact (k : Nat) (input : List Nat) : Option (List Nat × List Nat) :=
  match k, input with
  | 0, input => some ([], input)
  | _ + 1, [] => none
  | k + 1, b :: rest =>
      match readExact k rest with
      | none => none
      | some (bs, rem) => some (b :: bs, rem)

/-- Whether a byte is a UTF-8 continuation byte (`10xxxxxx`). -/
def utf8Cont (b : Nat) : Bool := decide (128 ≤ b) && decide (b < 192)

/-- The UTF-8 validity check performed by `String::from_utf8` (the standard
table, including the overlong/surrogate restrictions on the second byte of
3- and 4-byte sequences). -/
def utf8Valid : List Nat → Bool
  | [] => true
  | b :: rest =>
      if b < 0x80 then utf8Valid rest
      else if b < 0xC2 then false
      else if b < 0xE0 then
        match rest with
        | c :: r => utf8Cont c && utf8Valid r
        | [] => false
      else if b < 0xF0 then
        match rest with
        | c :: d :: r =>
            (if b = 0xE0 then decide (0xA0 ≤ c) && decide (c ≤ 0xBF)
             else if b = 0xED then decide (0x80 ≤ c) && decide (c ≤ 0x9F)
             else utf8Cont c) && utf8Cont d && utf8Valid r
        | _ => false
      else if b < 0xF5 then
        match rest with
        | c :: d :: e :: r =>
            (if b = 0xF0 then decide (0x90 ≤ c) && decide (c ≤ 0xBF)
             else if b = 0xF4 then decide (0x80 ≤ c) && decide (c ≤ 0x8F)
             else utf8Cont c) && utf8Cont d && utf8Cont e && utf8Valid r
        | _ => false
      else false

/-- `PacketReadExt::read_string`: VarInt length (whose
`try_into::<usize>()` rejects negative `i32` patterns), that many bytes,
then the `String::from_utf8` validation.  A Rust `String` is carried as
its UTF-8 bytes, so the successful read returns exactly the bytes it
consumed. -/
def readString (input : List Nat) : Option (List Nat × List Nat) :=
  match readVar I32 input with
  | none => none
  | some (len, rest) =>
      if len < 2 ^ 31 then
        match readExact len rest with
        | none => none
        | some (bytes, rem) =>
            if utf8Valid bytes then some (bytes, rem) else none
      else none

/-- `PacketReadExt::read_uuid`: two big-endian `u64` halves. -/
def readUuid (input : List Nat) : Option ((Nat × Nat) × List Nat) :=
  match readBEPattern 8 input with
  | none => none
  | some (hi, r1) =>
      match readBEPattern 8 r1 with
      | none => none
      | some (lo, r2) => some ((hi, lo), r2)

/-- The signature block of the protocol-760 login start (`Signature::read`,
`mc/login.rs`): big-endian `i64` expiration time, then a VarInt-length
public key, then a VarInt-length signature. -/
structure Signature where
  expirationTime : Int
  publicKey : List Nat
  signature : List Nat
deriving DecidableEq, Repr

/-- `Signature::read` from `mc/login.rs`. -/
def signatureRead (input : List Nat) : Option (Signature × List Nat) :=
  match readI64BE input with
  | none => none
  | some (exp, r1) =>
      match readVar I32 r1 with
      | none => none
      | some (pkLen, r2) =>
          if pkLen < 2 ^ 31 then
            match readExact pkLen r2 with
            | none => none
            | some (pk, r3) =>
                match readVar I32 r3 with
                | none => none
                | some (sigLen, r4) =>
                    if sigLen < 2 ^ 31 then
                      match readExact sigLen r4 with
                      | none => none
                      | some (sg, r5) => some (⟨exp, pk, sg⟩, r5)
                    else none
          else none

/-- The protocol-761 `LoginStart` (`mc/net/login.rs`): username and
optional UUID, no signature field. -/
structure LoginStart761 where
  name : List Nat
  uuid : Option (Nat × Nat)
deriving DecidableEq, Repr

/-- `LoginStart::read` from `mc/net/login.rs` (the protocol-761 layout):
string name, then a boolean-prefixed optional UUID. -/
def loginStartRead761 (input : List Nat) : Option (LoginStart761 × List Nat) :=
  match readString input with
  | none => none
  | some (name, r1) =>
      match readBool r1 with
      | none => none
      | some (hasUuid, r2) =>
          if hasUuid then
            match readUuid r2 with
            | none => none
            | some (uuid, r3) => some (⟨name, some uuid⟩, r3)
          else some (⟨name, none⟩, r2)

/-- The protocol-760 `LoginStart` (`mc/login.rs`): username, optional
signature block, optional UUID. -/
structure LoginStart760 where
  name : List Nat
  sig : Option Signature
  uuid : Option (Nat × Nat)
deriving DecidableEq, Repr

/-- `LoginStart::read` from `mc/login.rs` (the protocol-760 layout):
string name, boolean-prefixed optional signature block, boolean-prefixed
optional UUID. -/
def loginStartRead760 (input : List Nat) : Option (LoginStart760 × List Nat) :=
  match readString input with
  | none => none
  | some (name, r1) =>
      match readBool r1 with
      | none => none
      | some (hasSig, r2) =>
          let sigStep : Option (Option Signature × List Nat) :=
            if hasSig then
              match signatureRead r2 with
              | none => none
              | some (sg, r3) => some (some sg, r3)
            else some (none, r2)
          match sigStep with
          | none => none
          | some (sig, r3) =>
              match readBool r3 with
              | none => none
              | some (hasUuid, r4) =>
                  if hasUuid then
                    match readUuid r4 with
                    | none => none
                    | some (uuid, r5) => some (⟨name, sig, uuid⟩, r5)
                  else some (⟨name, sig, none⟩, r4)

/-- The wire bytes of a well-formed protocol-761 login start: name as a
VarInt-length-prefixed string, then the boolean-prefixed optional UUID
(two big-endian `u64` halves). -/
def encodeLogin761 (name : List Nat) (uuid : Option (Nat × Nat)) : List Nat :=
  writeVar name.length ++ name
    ++ (match uuid with
        | none => [0]
        | some u => 1 :: (beBytes 8 u.1 ++ beBytes 8 u.2))

/-- The wire bytes of a well-formed protocol-760 signature block. -/
def encodeSignature (s : Signature) : List Nat :=
  writeI64BE s.expirationTime ++ writeVar s.publicKey.length ++ s.publicKey
    ++ writeVar s.signature.length ++ s.signature

/-- The wire bytes of a well-formed protocol-760 login start: name, then
the boolean-prefixed optional signature block, then the boolean-prefixed
optional UUID. -/
def encodeLogin760 (name : List Nat) (sig : Option Signature)
    (uuid : Option (Nat × Nat)) : List Nat :=
  writeVar name.length ++ name
    ++ (match sig with
        | none => [0]
        | some s => 1 :: encodeSignature s)
    ++ (match uuid with
        | none => [0]
        | some u => 1 :: (beBytes 8 u.1 ++ beBytes 8 u.2))

theorem readExact_append (bs : List Nat) :
    ∀ rest : List Nat, readExact bs.length (bs ++ rest) = some (bs, rest) := by
  induction bs with
  | nil => intro rest; simp [readExact]
  | cons b bs ih =>
      intro rest
      rw [List.length_cons, List.cons_append, readExact, ih]

theorem readString_encoded (name : List Nat) (rest : List Nat)
    (hval : utf8Valid name = true) (hlen : name.length < 2 ^ 31) :
    readString (writeVar name.length ++ (name ++ rest)) = some (name, rest) := by
  rw [readString,
    readVar_writeVar I32 name.length (name ++ rest)
      (by simp only [I32]; omega)
      (by simp only [I32]; exact writeVar_length_i32 _ (by omega))]
  simp only [if_pos hlen, readExact_append, hval, if_true]

theorem readUuid_encoded (u : Nat × Nat) (rest : List Nat)
    (h1 : u.1 < 2 ^ 64) (h2 : u.2 < 2 ^ 64) :
    readUuid (beBytes 8 u.1 ++ beBytes 8 u.2 ++ rest) = some (u, rest) := by
  have e1 := readBEPattern_beBytes 8 u.1 (beBytes 8 u.2 ++ rest)
  have e2 := readBEPattern_beBytes 8 u.2 rest
  rw [Nat.mod_eq_of_lt (show u.1 < 2 ^ (8 * 8) by omega)] at e1
  rw [Nat.mod_eq_of_lt (show u.2 < 2 ^ (8 * 8) by omega)] at e2
  rw [readUuid, List.append_assoc]
  simp only [e1, e2]

theorem signatureRead_encoded (s : Signature) (rest : List Nat)
    (hexp1 : -(2 ^ 63) ≤ s.expirationTime) (hexp2 : s.expirationTime < 2 ^ 63)
    (hpk : s.publicKey.length < 2 ^ 31) (hsg : s.signature.length < 2 ^ 31) :
    signatureRead (encodeSignature s ++ rest) = some (s, rest) := by
  rw [signatureRead, encodeSignature]
  rw [show writeI64BE s.expirationTime ++ writeVar s.publicKey.length ++ s.publicKey
        ++ writeVar s.signature.length ++ s.signature ++ rest
      = writeI64BE s.expirationTime ++ (writeVar s.publicKey.length ++ (s.publicKey
        ++ (writeVar s.signature.length ++ (s.signature ++ rest)))) by
    simp [List.append_assoc]]
  simp only [readI64BE_writeI64BE _ _ hexp1 hexp2,
    readVar_writeVar I32 s.publicKey.length
      (s.publicKey ++ (writeVar s.signature.length ++ (s.signature ++ rest)))
      (by simp only [I32]; omega)
      (by simp only [I32]; exact writeVar_length_i32 _ (by omega)),
    hpk, if_true, readExact_append,
    readVar_writeVar I32 s.signature.length (s.signature ++ rest)
      (by simp only [I32]; omega)
      (by simp only [I32]; exact writeVar_length_i32 _ (by omega)),
    hsg]

/-- C6 (counterexample): no single `LoginStart::read` accepts both wire
layouts.  The byte string `[1,97, 1, 0×8, 0, 0, 0]` is a well-formed
protocol-760 login start (name `"a"`, signature block present with
expiration 0 and empty key/signature, no UUID) — the `mc/login.rs` reader
decodes it — but `LoginStart::read` of `mc/net/login.rs` (the 761 layout)
fails on it; conversely the 761 bytes `[1,97, 0]` (name `"a"`, no UUID)
decode under the 761 reader but the 760 reader fails on them. -/
theorem loginStart_layouts_counterexample :
    loginStartRead760 [1, 97, 1, 0, 0, 0, 0, 0, 0, 0, 0, 0, 0, 0]
      = some (⟨[97], some ⟨0, [], []⟩, none⟩, []) ∧
    loginStartRead761 [1, 97, 1, 0, 0, 0, 0, 0, 0, 0, 0, 0, 0, 0] = none ∧
    loginStartRead761 [1, 97, 0] = some (⟨[97], none⟩, []) ∧
    loginStartRead760 [1, 97, 0] = none := by
  decide

/-- C6 (amended): each of the repository's two `LoginStart::read`
implementations accepts exactly its own wire layout and returns the
username: the `mc/net/login.rs` reader decodes every well-formed
protocol-761 input, and the `mc/login.rs` reader decodes every well-formed
protocol-760 input (with or without a signature block).  Neither single
reader accepts both layouts (see the counterexample). -/
theorem loginStart_layouts (name : List Nat) (uuid : Option (Nat × Nat))
    (s : Signature)
    (hval : utf8Valid name = true) (hlen : name.length < 2 ^ 31)
    (huuid : ∀ u, uuid = some u → u.1 < 2 ^ 64 ∧ u.2 < 2 ^ 64)
    (hexp1 : -(2 ^ 63) ≤ s.expirationTime) (hexp2 : s.expirationTime < 2 ^ 63)
    (hpk : s.publicKey.length < 2 ^ 31) (hsg : s.signature.length < 2 ^ 31) :
    loginStartRead761 (encodeLogin761 name uuid) = some (⟨name, uuid⟩, []) ∧
    loginStartRead760 (encodeLogin760 name none uuid) = some (⟨name, none, uuid⟩, []) ∧
    loginStartRead760 (encodeLogin760 name (some s) uuid)
      = some (⟨name, some s, uuid⟩, []) := by
  cases uuid with
  | none =>
      refine ⟨?_, ?_, ?_⟩
      · simp [loginStartRead761, encodeLogin761,
          readString_encoded name [0] hval hlen, readBool, readU8]
      · simp [loginStartRead760, encodeLogin760,
          readString_encoded name [0, 0] hval hlen, readBool, readU8]
      · simp [loginStartRead760, encodeLogin760,
          readString_encoded name (1 :: (encodeSignature s ++ [0])) hval hlen,
          signatureRead_encoded s [0] hexp1 hexp2 hpk hsg, readBool, readU8]
  | some u =>
      obtain ⟨h1, h2⟩ := huuid u rfl
      have he : readUuid (beBytes 8 u.1 ++ beBytes 8 u.2) = some (u, []) := by
        have := readUuid_encoded u [] h1 h2
        simpa using this
      refine ⟨?_, ?_, ?_⟩
      · simp [loginStartRead761, encodeLogin761,
          readString_encoded name (1 :: (beBytes 8 u.1 ++ beBytes 8 u.2)) hval hlen,
          readBool, readU8, he]
      · simp [loginStartRead760, encodeLogin760,
          readString_encoded name (0 :: 1 :: (beBytes 8 u.1 ++ beBytes 8 u.2))
            hval hlen,
          readBool, readU8, he]
      · simp [loginStartRead760, encodeLogin760,
          readString_encoded name
            (1 :: (encodeSignature s ++ 1 :: (beBytes 8 u.1 ++ beBytes 8 u.2)))
            hval hlen,
          signatureRead_encoded s (1 :: (beBytes 8 u.1 ++ beBytes 8 u.2))
            hexp1 hexp2 hpk hsg,
          readBool, readU8, he]

/-- Witness for `loginStart_layouts`: name `"a"`, a present UUID
`(1, 2)`, and a signature block with expiration 5 and one-byte key and
signature. -/
theorem loginStart_layouts_witness :
    (utf8Valid [97] = true) ∧ (([97] : List Nat).length < 2 ^ 31) ∧
    (loginStartRead761 (encodeLogin761 [97] (some (1, 2)))
        = some (⟨[97], some (1, 2)⟩, []) ∧
      loginStartRead760 (encodeLogin760 [97] none (some (1, 2)))
        = some (⟨[97], none, some (1, 2)⟩, []) ∧
      loginStartRead760 (encodeLogin760 [97] (some ⟨5, [8], [9]⟩) (some (1, 2)))
        = some (⟨[97], some ⟨5, [8], [9]⟩, some (1, 2)⟩, [])) :=
  ⟨by decide, by norm_num,
    loginStart_layouts [97] (some (1, 2)) ⟨5, [8], [9]⟩ (by decide) (by norm_num)
      (by intro u hu; cases hu; exact ⟨by norm_num, by norm_num⟩)
      (by norm_num) (by norm_num) (by norm_num) (by norm_num)⟩

/-! ## Colors and legacy formatting codes (`mc/text.rs`)

`TextColor::legacy_char` resolves a hex color by converting it and each of
the 17 named colors to CIE-Lab (`Lab::from_rgb`, the `lab` crate) and
taking the argmin of `squared_distance`, all in `f32`.  The Lab conversion
and distance are external floating-point code, so the composite
`rgb ↦ rgb ↦ squared-distance` function enters the model as a parameter
`dist`; `LabDistAdmissible` captures the only facts the proofs use, each
true of the real computation: a squared distance is zero on identical
inputs (identical RGB triples give bitwise-identical Lab values), is
nonnegative (a sum of squares of finite values), and is finite (below
`f32::MAX`, modelled as `2 ^ 128`). -/

/-- An RGB triple as produced by `parse_hex` (`[u8; 3]`). -/
abbrev RGB : Type := Nat × Nat × Nat

/-- The 17 named colors (`NamedTextColor`), in declaration order. -/
inductive NamedTextColor where
  | Black | DarkBlue | DarkGreen | DarkAqua | DarkRed | DarkPurple | Gold | Gray
  | DarkGray | Blue | Green | Aqua | Red | LightPurple | Yellow | White | Reset
deriving DecidableEq, Repr

/-- `NamedTextColor::legacy_char`. -/
def NamedTextColor.legacyChar : NamedTextColor → Char
  | .Black => '0'
  | .DarkBlue => '1'
  | .DarkGreen => '2'
  | .DarkAqua => '3'
  | .DarkRed => '4'
  | .DarkPurple => '5'
  | .Gold => '6'
  | .Gray => '7'
  | .DarkGray => '8'
  | .Blue => '9'
  | .Green => 'a'
  | .Aqua => 'b'
  | .Red => 'c'
  | .LightPurple => 'd'
  | .Yellow => 'e'
  | .White => 'f'
  | .Reset => 'r'

/-- `NamedTextColor::vanilla`: the reference RGB values. -/
def NamedTextColor.vanilla : NamedTextColor → RGB
  | .Black => (0, 0, 0)
  | .DarkBlue => (0, 0, 170)
  | .DarkGreen => (0, 170, 0)
  | .DarkAqua => (0, 170, 170)
  | .DarkRed => (170, 0, 0)
  | .DarkPurple => (170, 0, 170)
  | .Gold => (255, 170, 0)
  | .Gray => (170, 170, 170)
  | .DarkGray => (85, 85, 85)
  | .Blue => (85, 85, 255)
  | .Green => (85, 255, 85)
  | .Aqua => (85, 255, 255)
  | .Red => (255, 85, 85)
  | .LightPurple => (255, 85, 255)
  | .Yellow => (255, 255, 85)
  | .White => (255, 255, 255)
  | .Reset => (255, 255, 255)

/-- `enum_iterator::all::<NamedTextColor>()`: declaration order. -/
def allNamedColors : List NamedTextColor :=
  [.Black, .DarkBlue, .DarkGreen, .DarkAqua, .DarkRed, .DarkPurple, .Gold, .Gray,
    .DarkGray, .Blue, .Green, .Aqua, .Red, .LightPurple, .Yellow, .White, .Reset]

/-- `char::to_digit(16)`: the hexadecimal digit value of a character. -/
def hexDigit? (c : Char) : Option Nat :=
  if '0' ≤ c ∧ c ≤ '9' then some (c.toNat - '0'.toNat)
  else if 'a' ≤ c ∧ c ≤ 'f' then some (c.toNat - 'a'.toNat + 10)
  else if 'A' ≤ c ∧ c ≤ 'F' then some (c.toNat - 'A'.toNat + 10)
  else none

/-- Whether `to_digit(16)` accepts the character, i.e. whether it is a
valid hexadecimal digit. -/
def isHexDigitChar (c : Char) : Bool := (hexDigit? c).isSome

/-- The digit loop of `u8::from_str_radix(…, 16)`: `checked_mul` by the
radix, then `checked_add` (or, after a `-` sign on this unsigned type,
`checked_sub`) of the digit; any failure is `None`. -/
def u8Radix16Go (neg : Bool) (acc : Nat) : List Char → Option Nat
  | [] => some acc
  | c :: rest =>
      match hexDigit? c with
      | none => none
      | some d =>
          if acc * 16 ≤ 255 then
            if neg then
              if d ≤ acc * 16 then u8Radix16Go neg (acc * 16 - d) rest else none
            else
              if acc * 16 + d ≤ 255 then u8Radix16Go neg (acc * 16 + d) rest else none
          else none

/-- `u8::from_str_radix(s, 16)`: an optional leading `+` or `-` sign
followed by a non-empty digit string.  NOTE the sign handling: `+1` parses
to 1 and `-0` to 0, so a string can parse even though not all its
characters are hexadecimal digits. -/
def u8FromStrRadix16 (s : List Char) : Option Nat :=
  match s with
  | [] => none
  | c :: rest =>
      if c = '+' then (if rest.isEmpty then none else u8Radix16Go false 0 rest)
      else if c = '-' then (if rest.isEmpty then none else u8Radix16Go true 0 rest)
      else u8Radix16Go false 0 s

/-- `parse_hex` (`mc/text.rs`): strip all leading `#`, then parse the byte
slices `[0..2]`, `[2..4]`, `[4..6]` as radix-16 `u8`s.  The source indexes
by BYTES; the model slices characters, which coincides when the first six
characters are ASCII — the hypothesis under which the claims about this
function are stated (shorter or non-ASCII-boundary strings make the source
panic on the slice, outside every claim here). -/
def parseHex (hex : List Char) : Option (Nat × Nat × Nat) :=
  let hex := hex.dropWhile (· = '#')
  match u8FromStrRadix16 (hex.take 2) with
  | none => none
  | some red =>
      match u8FromStrRadix16 ((hex.drop 2).take 2) with
      | none => none
      | some green =>
          match u8FromStrRadix16 ((hex.drop 4).take 2) with
          | none => none
          | some blue => some (red, green, blue)

/-- `TextColor`: a named color or a `#rrggbb` hex string (carried as its
characters). -/
inductive TextColor where
  | Named (named : NamedTextColor)
  | Hex (hex : List Char)
deriving DecidableEq, Repr

/-- `TextFont` (four named fonts; irrelevant to legacy rendering but part
of `TextFormatting`). -/
inductive TextFont where
  | Default | Uniform | EnchantingTable | Illager
deriving DecidableEq, Repr

/-- `TextFormatting` (`mc/text.rs`): the optional color, font and the five
boolean attributes. -/
structure TextFormatting where
  color : Option TextColor
  font : Option TextFont
  bolded : Option Bool
  italicized : Option Bool
  underlined : Option Bool
  struckThrough : Option Bool
  obfuscated : Option Bool
deriving DecidableEq, Repr

/-- `TextFormatting::default()`: everything unset. -/
def TextFormatting.default : TextFormatting := ⟨none, none, none, none, none, none, none⟩

/-- An RGB triple with `u8` components, the only inputs the argmin loop
ever feeds to the Lab distance. -/
def InRgbRange (x : RGB) : Prop := x.1 < 256 ∧ x.2.1 < 256 ∧ x.2.2 < 256

/-- `f32::MAX`, the initial `closest_distance`: any Rat strictly larger
than every finite `f32` works for the model; `2 ^ 128` is one. -/
def f32Max : ℚ := 2 ^ 128

/-- The facts about the `f32` Lab squared distance the proofs rely on (see
the section comment). -/
def LabDistAdmissible (dist : RGB → RGB → ℚ) : Prop :=
  (∀ x, InRgbRange x → dist x x = 0) ∧
  (∀ x y, InRgbRange x → InRgbRange y → 0 ≤ dist x y ∧ dist x y < f32Max)

/-- The argmin loop in `TextColor::legacy_char`: strictly-closer colors
replace the current best, ties keep the earlier color. -/
def nearestGo (dist : RGB → RGB → ℚ) (rgb : RGB) :
    List NamedTextColor → Option NamedTextColor → ℚ → Option NamedTextColor
  | [], closest, _ => closest
  | c :: cs, closest, best =>
      if dist c.vanilla rgb < best then nearestGo dist rgb cs (some c) (dist c.vanilla rgb)
      else nearestGo dist rgb cs closest best

/-- `TextColor::legacy_char`: named colors map directly; a hex color is
parsed (`none` models the propagated parse error) and resolved to the
nearest named color.  The source's `closest.unwrap()` is modelled with a
`getD .Black` default; under `LabDistAdmissible` the loop always returns
`some` (the first iteration already satisfies `dist < f32::MAX`), so the
default is unreachable. -/
def TextColor.legacyChar (dist : RGB → RGB → ℚ) : TextColor → Option Char
  | .Named named => some named.legacyChar
  | .Hex hex =>
      match parseHex hex with
      | none => none
      | some rgb =>
          some (((nearestGo dist rgb allNamedColors none f32Max).getD .Black).legacyChar)

/-- The escapes for the five boolean attributes, in the order
`TextFormatting::legacy_codes` emits them (`§l §o §n §m §k`, each only
when the attribute is `Some(true)`). -/
def flagCodes (fmt : TextFormatting) : List Char :=
  (if fmt.bolded = some true then ['§', 'l'] else [])
    ++ (if fmt.italicized = some true then ['§', 'o'] else [])
    ++ (if fmt.underlined = some true then ['§', 'n'] else [])
    ++ (if fmt.struckThrough = some true then ['§', 'm'] else [])
    ++ (if fmt.obfuscated = some true then ['§', 'k'] else [])

/-- `TextFormatting::legacy_codes`: the color escape (falling back to
Reset's `§r` when `legacy_char` errors, via `unwrap_or_else`), then the
boolean-attribute escapes. -/
def TextFormatting.legacyCodes (dist : RGB → RGB → ℚ) (fmt : TextFormatting) :
    List Char :=
  (match fmt.color with
    | none => []
    | some color =>
        match color.legacyChar dist with
        | some ch => ['§', ch]
        | none => ['§', NamedTextColor.Reset.legacyChar])
    ++ flagCodes fmt

/-- A concrete admissible distance used to witness the C10 refutation:
the squared Euclidean distance on RGB.  (The refutation does not depend on
which admissible distance is used — at the counterexample's color
`(0,0,0)` every admissible distance selects Black, whose vanilla RGB is
identical — this instance merely discharges the existential.) -/
def rgbSqDist (x y : RGB) : ℚ :=
  ((x.1 : ℚ) - (y.1 : ℚ)) ^ 2 + ((x.2.1 : ℚ) - (y.2.1 : ℚ)) ^ 2
    + ((x.2.2 : ℚ) - (y.2.2 : ℚ)) ^ 2

theorem rgbSqDist_admissible : LabDistAdmissible rgbSqDist := by
  constructor
  · intro x _
    simp [rgbSqDist]
  · intro x y hx hy
    obtain ⟨hx1, hx2, hx3⟩ := hx
    obtain ⟨hy1, hy2, hy3⟩ := hy
    constructor
    · unfold rgbSqDist
      positivity
    · unfold rgbSqDist f32Max
      have b1 : ((x.1 : ℚ) - (y.1 : ℚ)) ^ 2 ≤ 65025 := by
        have m1 : (x.1 : ℚ) ≤ 255 := by exact_mod_cast Nat.le_of_lt_succ (by omega)
        have m2 : (y.1 : ℚ) ≤ 255 := by exact_mod_cast Nat.le_of_lt_succ (by omega)
        have m3 : (0 : ℚ) ≤ (x.1 : ℚ) := by positivity
        have m4 : (0 : ℚ) ≤ (y.1 : ℚ) := by positivity
        nlinarith
      have b2 : ((x.2.1 : ℚ) - (y.2.1 : ℚ)) ^ 2 ≤ 65025 := by
        have m1 : (x.2.1 : ℚ) ≤ 255 := by exact_mod_cast Nat.le_of_lt_succ (by omega)
        have m2 : (y.2.1 : ℚ) ≤ 255 := by exact_mod_cast Nat.le_of_lt_succ (by omega)
        have m3 : (0 : ℚ) ≤ (x.2.1 : ℚ) := by positivity
        have m4 : (0 : ℚ) ≤ (y.2.1 : ℚ) := by positivity
        nlinarith
      have b3 : ((x.2.2 : ℚ) - (y.2.2 : ℚ)) ^ 2 ≤ 65025 := by
        have m1 : (x.2.2 : ℚ) ≤ 255 := by exact_mod_cast Nat.le_of_lt_succ (by omega)
        have m2 : (y.2.2 : ℚ) ≤ 255 := by exact_mod_cast Nat.le_of_lt_succ (by omega)
        have m3 : (0 : ℚ) ≤ (x.2.2 : ℚ) := by positivity
        have m4 : (0 : ℚ) ≤ (y.2.2 : ℚ) := by positivity
        nlinarith
      have : (195075 : ℚ) < 2 ^ 128 := by norm_num
      linarith

/-- If no remaining color strictly improves on the current best distance,
the argmin loop keeps the current candidate. -/
theorem nearestGo_no_improve (dist : RGB → RGB → ℚ) (rgb : RGB)
    (cs : List NamedTextColor) (closest : Option NamedTextColor) (best : ℚ)
    (h : ∀ c ∈ cs, ¬ dist c.vanilla rgb < best) :
    nearestGo dist rgb cs closest best = closest := by
  induction cs with
  | nil => rw [nearestGo]
  | cons c cs ih =>
      rw [nearestGo, if_neg (h c (by simp))]
      exact ih fun d hd => h d (by simp [hd])

/-- For any admissible distance, the nearest named color to `(0,0,0)` is
Black: its vanilla RGB is exactly `(0,0,0)`, so its distance is zero, and
no later color can be strictly below zero. -/
theorem nearest_black (dist : RGB → RGB → ℚ) (hadm : LabDistAdmissible dist) :
    nearestGo dist (0, 0, 0) allNamedColors none f32Max = some .Black := by
  obtain ⟨hself, hbounds⟩ := hadm
  have hr : InRgbRange ((0, 0, 0) : RGB) := by exact ⟨by decide, by decide, by decide⟩
  have h0 : dist NamedTextColor.Black.vanilla (0, 0, 0) = 0 := hself _ hr
  rw [allNamedColors, nearestGo, if_pos (by rw [h0]; norm_num [f32Max]), h0]
  apply nearestGo_no_improve
  intro c _
  have : 0 ≤ dist c.vanilla (0, 0, 0) :=
    (hbounds c.vanilla (0, 0, 0) (by cases c <;> exact ⟨by decide, by decide, by decide⟩)
      hr).1
  linarith

/-- C10 (counterexample): the claim is false.  `u8::from_str_radix`
accepts a leading `+`, so for the hex color `"+0+0+0"` — six ASCII
characters after stripping `#`, NOT all hexadecimal digits — `parse_hex`
SUCCEEDS with `(0,0,0)` and `legacy_codes` emits the escape of the nearest
named color (Black, `§0`) instead of the Reset escape `§r`. -/
theorem legacy_hex_counterexample :
    ¬ (∀ dist : RGB → RGB → ℚ, LabDistAdmissible dist →
        ∀ (fmt : TextFormatting) (hex : List Char), fmt.color = some (.Hex hex) →
          6 ≤ (hex.dropWhile (· = '#')).length →
          (∀ c ∈ (hex.dropWhile (· = '#')).take 6, c.val < 128) →
          ¬ (∀ c ∈ (hex.dropWhile (· = '#')).take 6, isHexDigitChar c = true) →
          fmt.legacyCodes dist = ['§', 'r'] ++ flagCodes fmt) := by
  intro h
  have hclaim := h rgbSqDist rgbSqDist_admissible
    ⟨some (.Hex ['+', '0', '+', '0', '+', '0']), none, none, none, none, none, none⟩
    ['+', '0', '+', '0', '+', '0'] rfl (by decide) (by decide) (by decide)
  have hp : parseHex ['+', '0', '+', '0', '+', '0'] = some (0, 0, 0) := by decide
  have hact : (⟨some (.Hex ['+', '0', '+', '0', '+', '0']), none, none, none, none,
      none, none⟩ : TextFormatting).legacyCodes rgbSqDist = ['§', '0'] := by
    rw [TextFormatting.legacyCodes]
    simp only [TextColor.legacyChar, hp, nearest_black rgbSqDist rgbSqDist_admissible]
    rfl
  rw [hact] at hclaim
  revert hclaim
  decide

/-- C10 (amended): whenever `parse_hex` fails — which under the claim's
hypotheses happens exactly when no `+`/`-` sign trick makes all three
2-character slices parse (a string of six non-digit-non-sign characters,
for instance) — legacy rendering does not fail: `legacy_codes` emits the
Reset escape `§r` in place of the color and the boolean-attribute escapes
unchanged.  (When `parse_hex` succeeds despite non-digit characters, e.g.
`"+0+0+0"`, the nearest named color's escape is emitted instead — see the
counterexample.) -/
theorem legacy_hex_parse_failure (dist : RGB → RGB → ℚ) (fmt : TextFormatting)
    (hex : List Char) (hc : fmt.color = some (.Hex hex))
    (hfail : parseHex hex = none) :
    fmt.legacyCodes dist = ['§', 'r'] ++ flagCodes fmt := by
  rw [TextFormatting.legacyCodes, hc]
  simp only [TextColor.legacyChar, hfail]
  rfl

/-- Witness for `legacy_hex_parse_failure` at the non-hex color
`"zzzzzz"` with `bolded = Some(true)`. -/
theorem legacy_hex_parse_failure_witness :
    ((⟨some (.Hex ['z', 'z', 'z', 'z', 'z', 'z']), none, some true, none, none, none,
        none⟩ : TextFormatting).color = some (.Hex ['z', 'z', 'z', 'z', 'z', 'z'])) ∧
    parseHex ['z', 'z', 'z', 'z', 'z', 'z'] = none ∧
    (⟨some (.Hex ['z', 'z', 'z', 'z', 'z', 'z']), none, some true, none, none, none,
        none⟩ : TextFormatting).legacyCodes rgbSqDist
      = ['§', 'r'] ++ flagCodes ⟨some (.Hex ['z', 'z', 'z', 'z', 'z', 'z']), none,
          some true, none, none, none, none⟩ :=
  ⟨rfl, by decide,
    legacy_hex_parse_failure rgbSqDist _ ['z', 'z', 'z', 'z', 'z', 'z'] rfl (by decide)⟩

/-! ## Text components and the legacy status response

`Text` (`mc/text.rs`) with the rendering functions used by the legacy
(pre-Netty) server-list ping, and `Connection::send_legacy_status_response`
in both revisions present in the tree: the current one (`mc/net.rs`, which
writes `response.chars().count()` as the length field) and the superseded
one (`mc.rs`, which writes `bytes.len()`, the byte length of the UTF-16BE
encoding).  Strings are carried as their characters; `serde_json::Number`
is carried as its decimal rendering, the only aspect the renderers use. -/

/-- Alias so the `Bool` variant of `Text` can carry a boolean (inside the
declaration the bare name `Bool` refers to the variant). -/
abbrev BoolT : Type := Bool

mutual

inductive Text where
  | String (s : List Char)
  | Bool (b : BoolT)
  | Number (n : List Char)
  | Sequential (children : List Text)
  | Full (content : TextContent) (children : List Text) (formatting : TextFormatting)

inductive TextContent where
  | Plain (text : List Char)
  | Translated (key : List Char) (args : List Text)
  | KeyBinding (key : List Char)

end

/-- `Display for TextContent`: plain text, or the translation/keybinding
key. -/
def TextContent.display : TextContent → List Char
  | .Plain text => text
  | .Translated key _ => key
  | .KeyBinding key => key

mutual

/-- `Text::to_plain_string`. -/
def Text.toPlainString : Text → List Char
  | .String s => s
  | .Bool b => if b then ['t', 'r', 'u', 'e'] else ['f', 'a', 'l', 's', 'e']
  | .Number n => n
  | .Sequential children => plainList children
  | .Full content children _ => content.display ++ plainList children

def plainList : List Text → List Char
  | [] => []
  | t :: ts => t.toPlainString ++ plainList ts

end

mutual

/-- `Text::to_legacy_string` (formatting escapes, then the content, then
the children; non-Full non-Sequential variants fall back to the plain
string).  Parameterised by the Lab distance like `legacy_codes`. -/
def Text.toLegacyString (dist : RGB → RGB → ℚ) : Text → List Char
  | .Sequential children => legacyList dist children
  | .Full content children formatting =>
      formatting.legacyCodes dist ++ content.display ++ legacyList dist children
  | t => t.toPlainString

def legacyList (dist : RGB → RGB → ℚ) : List Text → List Char
  | [] => []
  | t :: ts => t.toLegacyString dist ++ legacyList dist ts

end

/-- `Text::modify_as_full`: convert to the Full variant (via the
`From<D: Display>` conversions for the scalar variants) and apply the
modification. -/
def Text.modifyAsFull (t : Text) (modify :
    TextContent × List Text × TextFormatting → TextContent × List Text × TextFormatting) :
    Text :=
  let full : TextContent × List Text × TextFormatting :=
    match t with
    | .Full content children formatting => (content, children, formatting)
    | .String s => (.Plain s, [], TextFormatting.default)
    | .Bool b => (.Plain (if b then ['t', 'r', 'u', 'e'] else ['f', 'a', 'l', 's', 'e']),
        [], TextFormatting.default)
    | .Number n => (.Plain n, [], TextFormatting.default)
    | .Sequential children => (.Plain [], children, TextFormatting.default)
  match modify full with
  | (content, children, formatting) => .Full content children formatting

/-- `Text::color`. -/
def Text.color (t : Text) (c : TextColor) : Text :=
  t.modifyAsFull fun (content, children, fmt) =>
    (content, children, { fmt with color := some c })

/-- `Text::bolded` (the flag is typed through `BoolT` because the variant
`Text.Bool` shadows `Bool` in this namespace). -/
def Text.bolded (t : Text) (b : BoolT) : Text :=
  t.modifyAsFull fun (content, children, fmt) =>
    (content, children, { fmt with bolded := some b })

/-- `ListingVersion` (`pre_login.rs`). -/
structure ListingVersion where
  value : Int
  name : List Char

/-- `ListingPlayers`; the sample is irrelevant to the legacy response. -/
structure ListingPlayers where
  current : Int
  max : Int
  sample : Option (List (List Char × Nat × Nat))

/-- `Listing`; the icon is irrelevant to the legacy response. -/
structure Listing where
  version : ListingVersion
  players : ListingPlayers
  motd : Text
  icon : Option (List Char)

/-- Decimal digits of a natural number, most significant first
(`Display for u32`-style). -/
def natChars (n : Nat) : List Char :=
  if n < 10 then [Char.ofNat (48 + n)]
  else natChars (n / 10) ++ [Char.ofNat (48 + n % 10)]
termination_by n
decreasing_by exact Nat.div_lt_self (by omega) (by omega)

/-- `Display for i32`: an optional minus sign and the decimal digits. -/
def intChars (n : Int) : List Char :=
  if n < 0 then '-' :: natChars (-n).toNat else natChars n.toNat

/-- `Server::listing` (`server.rs`, current revision): protocol 761,
name `Minestodon 1.19.3`, players 0/1, MOTD `Minestodon!` in bold hex
color `#6364ff`, built through the `Text` builder methods.
`Server::legacy_listing` returns the same listing. -/
def serverListing : Listing :=
  { version := ⟨761, "Minestodon 1.19.3".data⟩
    players := ⟨0, 1, none⟩
    motd := ((Text.String "Minestodon!".data).color
        (.Hex "#6364ff".data)).bolded true
    icon := none }

/-- `Server::listing` (`lib.rs`, superseded revision): protocol 760, name
`Minestodon 1.19.2`, the same players and MOTD (there written as a `Full`
literal). -/
def oldServerListing : Listing :=
  { version := ⟨760, "Minestodon 1.19.2".data⟩
    players := ⟨0, 1, none⟩
    motd := Text.Full (.Plain "Minestodon!".data) []
        ⟨some (.Hex "#6364ff".data), none, some true, none, none, none, none⟩
    icon := none }

/-- `char::encode_utf16`: one code unit for BMP scalars, a surrogate pair
above. -/
def utf16Char (c : Char) : List Nat :=
  if c.toNat < 0x10000 then [c.toNat]
  else [0xD800 + (c.toNat - 0x10000) / 0x400, 0xDC00 + (c.toNat - 0x10000) % 0x400]

/-- `str::encode_utf16`: the UTF-16 code units of a string. -/
def utf16Units : List Char → List Nat
  | [] => []
  | c :: s => utf16Char c ++ utf16Units s

/-- `flat_map(u16::to_be_bytes)` over code units. -/
def utf16beUnits : List Nat → List Nat
  | [] => []
  | u :: us => beBytes 2 u ++ utf16beUnits us

/-- The UTF-16BE encoding of a string. -/
def utf16beBytes (s : List Char) : List Nat := utf16beUnits (utf16Units s)

/-- The `response` string of `Connection::send_legacy_status_response`
(`mc/net.rs`): the pre-1.4 format `motd_plain §current §max` for an empty
request remainder, the 1.4–1.6 format
`§1 \0 version \0 name \0 motd_legacy \0 current \0 max` otherwise. -/
def legacyResponse (dist : RGB → RGB → ℚ) (request : List Nat) (listing : Listing) :
    List Char :=
  if request.isEmpty then
    listing.motd.toPlainString ++ ['§'] ++ intChars listing.players.current
      ++ ['§'] ++ intChars listing.players.max
  else
    ['§', '1', '\x00'] ++ intChars listing.version.value ++ ['\x00']
      ++ listing.version.name ++ ['\x00'] ++ listing.motd.toLegacyString dist
      ++ ['\x00'] ++ intChars listing.players.current ++ ['\x00']
      ++ intChars listing.players.max

/-- `Connection::send_legacy_status_response` (`mc/net.rs`): the bytes
written to the stream — packet ID `0xFF`, the big-endian `u16`
`response.chars().count()` (`none` models the failed `try_into` when it
exceeds `u16`), then the UTF-16BE encoding of the response. -/
def sendLegacyStatusResponse (dist : RGB → RGB → ℚ) (request : List Nat)
    (listing : Listing) : Option (List Nat) :=
  if (legacyResponse dist request listing).length < 2 ^ 16 then
    some (0xff :: (beBytes 2 (legacyResponse dist request listing).length
      ++ utf16beBytes (legacyResponse dist request listing)))
  else none

/-- The `response` string of the superseded
`Connection::send_legacy_status_response` (`mc.rs`): same two formats, but
the MOTD is rendered through its `Display` impl in both branches.  That
impl is not part of this tree (the present `mc/text.rs` revision has none
for `Text`), so the rendering enters as the parameter `motdDisplay`. -/
def legacyResponseOld (motdDisplay : List Char) (request : List Nat)
    (listing : Listing) : List Char :=
  if request.isEmpty then
    motdDisplay ++ ['§'] ++ intChars listing.players.current
      ++ ['§'] ++ intChars listing.players.max
  else
    ['§', '1', '\x00'] ++ intChars listing.version.value ++ ['\x00']
      ++ listing.version.name ++ ['\x00'] ++ motdDisplay
      ++ ['\x00'] ++ intChars listing.players.current ++ ['\x00']
      ++ intChars listing.players.max

/-- The superseded `Connection::send_legacy_status_response` (`mc.rs`):
identical wire layout EXCEPT that the `u16` length field is `bytes.len()`,
the BYTE length of the UTF-16BE encoding. -/
def sendLegacyStatusResponseOld (motdDisplay : List Char) (request : List Nat)
    (listing : Listing) : Option (List Nat) :=
  if (utf16beBytes (legacyResponseOld motdDisplay request listing)).length < 2 ^ 16 then
    some (0xff :: (beBytes 2
        (utf16beBytes (legacyResponseOld motdDisplay request listing)).length
      ++ utf16beBytes (legacyResponseOld motdDisplay request listing)))
  else none

theorem nearestGo_some (dist : RGB → RGB → ℚ) (rgb : RGB) :
    ∀ (cs : List NamedTextColor) (c : NamedTextColor) (best : ℚ),
      ∃ d, nearestGo dist rgb cs (some c) best = some d := by
  intro cs
  induction cs with
  | nil => exact fun c best => ⟨c, by rw [nearestGo]⟩
  | cons x xs ih =>
      intro c best
      rw [nearestGo]
      by_cases h : dist x.vanilla rgb < best
      · rw [if_pos h]; exact ih x _
      · rw [if_neg h]; exact ih c best

/-- For an admissible distance the argmin loop always returns a color:
the first iteration already improves on the initial `f32::MAX`. -/
theorem nearest_exists (dist : RGB → RGB → ℚ) (hadm : LabDistAdmissible dist)
    (rgb : RGB) (hrgb : InRgbRange rgb) :
    ∃ named, nearestGo dist rgb allNamedColors none f32Max = some named := by
  rw [allNamedColors, nearestGo,
    if_pos ((hadm.2 NamedTextColor.Black.vanilla rgb
      ⟨by decide, by decide, by decide⟩ hrgb).2)]
  exact nearestGo_some dist rgb _ _ _

theorem legacyChar_bmp (n : NamedTextColor) : n.legacyChar.toNat < 65536 := by
  cases n <;> decide

theorem utf16Units_append (a b : List Char) :
    utf16Units (a ++ b) = utf16Units a ++ utf16Units b := by
  induction a with
  | nil => rfl
  | cons c s ih => rw [List.cons_append, utf16Units, utf16Units, ih, List.append_assoc]

/-- On strings whose characters are all BMP scalars the number of UTF-16
code units equals the number of characters. -/
theorem utf16Units_length_bmp (s : List Char) (h : ∀ c ∈ s, c.toNat < 65536) :
    (utf16Units s).length = s.length := by
  induction s with
  | nil => rfl
  | cons c s ih =>
      rw [utf16Units, List.length_append, List.length_cons,
        ih (fun d hd => h d (List.mem_cons_of_mem c hd)),
        show utf16Char c = [c.toNat] from by
          rw [utf16Char, if_pos (h c (List.mem_cons_self c s))]]
      simp only [List.length_singleton]
      omega

theorem beBytes_length (k v : Nat) : (beBytes k v).length = k := by
  induction k generalizing v with
  | zero => rfl
  | succ k ih => rw [beBytes, List.length_cons, ih]

theorem utf16beUnits_length (us : List Nat) :
    (utf16beUnits us).length = 2 * us.length := by
  induction us with
  | nil => rfl
  | cons u us ih =>
      rw [utf16beUnits, List.length_append, ih, beBytes_length, List.length_cons]
      ring

theorem natChars_eval0 : natChars 0 = ['0'] := by
  rw [natChars]; norm_num

theorem natChars_eval1 : natChars 1 = ['1'] := by
  rw [natChars]; norm_num

theorem natChars_eval761 : natChars 761 = ['7', '6', '1'] := by
  rw [natChars]; norm_num
  rw [natChars]; norm_num
  rw [natChars]; norm_num

theorem intChars_eval0 : intChars 0 = ['0'] := by
  rw [intChars, if_neg (by norm_num)]
  exact natChars_eval0

theorem intChars_eval1 : intChars 1 = ['1'] := by
  rw [intChars, if_neg (by norm_num)]
  exact natChars_eval1

theorem intChars_eval761 : intChars 761 = ['7', '6', '1'] := by
  rw [intChars, if_neg (by norm_num)]
  exact natChars_eval761

theorem serverListing_motd :
    serverListing.motd = Text.Full (.Plain "Minestodon!".data) []
      ⟨some (.Hex "#6364ff".data), none, some true, none, none, none, none⟩ := rfl

theorem parseHex_6364ff :
    parseHex ['#', '6', '3', '6', '4', 'f', 'f'] = some (99, 100, 255) := by decide

/-- The MOTD's legacy rendering: the nearest-color escape, the bold
escape, then the plain text. -/
theorem serverListing_motd_legacy (dist : RGB → RGB → ℚ) (named : NamedTextColor)
    (hn : nearestGo dist (99, 100, 255) allNamedColors none f32Max = some named) :
    serverListing.motd.toLegacyString dist
      = ['§', named.legacyChar, '§', 'l'] ++ "Minestodon!".data := by
  rw [serverListing_motd, Text.toLegacyString, TextFormatting.legacyCodes]
  simp only [TextColor.legacyChar, String.data]
  simp only [show "#6364ff".data = ['#', '6', '3', '6', '4', 'f', 'f'] from rfl,
    parseHex_6364ff, hn, TextContent.display, legacyList, flagCodes]
  simp

theorem serverListing_motd_plain :
    serverListing.motd.toPlainString = "Minestodon!".data := by
  rw [serverListing_motd, Text.toPlainString]
  simp [TextContent.display, plainList]

theorem legacyResponse_empty (dist : RGB → RGB → ℚ) :
    legacyResponse dist [] serverListing
      = "Minestodon!".data ++ ['§', '0', '§', '1'] := by
  rw [legacyResponse, if_pos (show ([] : List Nat).isEmpty = true from rfl),
    serverListing_motd_plain]
  simp only [serverListing, intChars_eval0, intChars_eval1]
  simp

theorem legacyResponse_nonempty (dist : RGB → RGB → ℚ) (named : NamedTextColor)
    (hn : nearestGo dist (99, 100, 255) allNamedColors none f32Max = some named)
    (b : Nat) (bs : List Nat) :
    legacyResponse dist (b :: bs) serverListing
      = ['§', '1', '\x00', '7', '6', '1', '\x00'] ++ "Minestodon 1.19.3".data
          ++ ['\x00', '§', named.legacyChar, '§', 'l'] ++ "Minestodon!".data
          ++ ['\x00', '0', '\x00', '1'] := by
  rw [legacyResponse, if_neg (by simp), serverListing_motd_legacy dist named hn]
  simp only [serverListing, intChars_eval0, intChars_eval1, intChars_eval761]
  simp

/-- C5 (amended): for the current revision (`mc/net.rs`).  A first byte
`0xFE` on a not-definitely-modern connection routes the remaining read
bytes to `send_legacy_status_response` (and closes); the bytes written are
`0xFF`, the big-endian `u16` number of UTF-16 code units of the response
string (the source writes `chars().count()`, which agrees because every
response character is a BMP scalar), then the UTF-16BE encoding of the
response; the pre-1.4 format is used exactly when the remainder is empty,
the 1.4–1.6 format otherwise.  The superseded revision (`mc.rs`) instead
writes the BYTE length of the encoding — see the counterexample. -/
theorem legacy_status_response (dist : RGB → RGB → ℚ) (hadm : LabDistAdmissible dist)
    (rest : List Nat) :
    (∀ (dc : Nat → List Nat → Option (List Nat)) (pkt : Option PartialPacket) (c : Bool),
      connFeed dc ⟨pkt, false, c⟩ (0xfe :: rest) = .legacyPing rest) ∧
    ∃ s : List Char,
      sendLegacyStatusResponse dist rest serverListing
        = some (0xff :: (beBytes 2 (utf16Units s).length ++ utf16beBytes s)) ∧
      (rest = [] → s = "Minestodon!".data ++ ['§', '0', '§', '1']) ∧
      (rest ≠ [] → ∃ named : NamedTextColor,
        s = ['§', '1', '\x00', '7', '6', '1', '\x00'] ++ "Minestodon 1.19.3".data
          ++ ['\x00', '§', named.legacyChar, '§', 'l'] ++ "Minestodon!".data
          ++ ['\x00', '0', '\x00', '1']) := by
  constructor
  · intro dc pkt c
    rw [connFeed, if_pos ⟨rfl, rfl⟩]
  · cases rest with
    | nil =>
        refine ⟨"Minestodon!".data ++ ['§', '0', '§', '1'], ?_, fun _ => rfl,
          fun h => absurd rfl h⟩
        rw [sendLegacyStatusResponse, legacyResponse_empty dist,
          utf16Units_length_bmp _ (by decide)]
        rw [if_pos
          (show ("Minestodon!".data ++ ['§', '0', '§', '1']).length < 2 ^ 16 by decide)]
    | cons b bs =>
        obtain ⟨named, hn⟩ :=
          nearest_exists dist hadm (99, 100, 255) ⟨by decide, by decide, by decide⟩
        refine ⟨['§', '1', '\x00', '7', '6', '1', '\x00'] ++ "Minestodon 1.19.3".data
            ++ ['\x00', '§', named.legacyChar, '§', 'l'] ++ "Minestodon!".data
            ++ ['\x00', '0', '\x00', '1'], ?_,
          fun h => absurd h (List.cons_ne_nil b bs), fun _ => ⟨named, rfl⟩⟩
        have happ : ∀ {a b : List Char}, (∀ ch ∈ a, ch.toNat < 65536) →
            (∀ ch ∈ b, ch.toNat < 65536) → ∀ ch ∈ a ++ b, ch.toNat < 65536 := by
          intro a b ha hb ch hc
          rcases List.mem_append.1 hc with h | h
          exacts [ha ch h, hb ch h]
        have hC : ∀ ch ∈ (['\x00', '§', named.legacyChar, '§', 'l'] : List Char),
            ch.toNat < 65536 := by
          intro ch hc
          simp only [List.mem_cons, List.not_mem_nil, or_false] at hc
          rcases hc with rfl | rfl | rfl | rfl | rfl
          · decide
          · decide
          · exact legacyChar_bmp named
          · decide
          · decide
        have hbmp := happ (happ (happ (happ
          (show ∀ ch ∈ (['§', '1', '\x00', '7', '6', '1', '\x00'] : List Char),
            ch.toNat < 65536 by decide)
          (show ∀ ch ∈ "Minestodon 1.19.3".data, ch.toNat < 65536 by decide)) hC)
          (show ∀ ch ∈ "Minestodon!".data, ch.toNat < 65536 by decide))
          (show ∀ ch ∈ (['\x00', '0', '\x00', '1'] : List Char), ch.toNat < 65536 by decide)
        have hlen : (['§', '1', '\x00', '7', '6', '1', '\x00'] ++ "Minestodon 1.19.3".data
            ++ ['\x00', '§', named.legacyChar, '§', 'l'] ++ "Minestodon!".data
            ++ ['\x00', '0', '\x00', '1']).length = 44 := by
          simp [show ("Minestodon 1.19.3".data).length = 17 by decide,
            show ("Minestodon!".data).length = 11 by decide]
        rw [sendLegacyStatusResponse, legacyResponse_nonempty dist named hn b bs,
          utf16Units_length_bmp _ hbmp]
        rw [if_pos (show (['§', '1', '\x00', '7', '6', '1', '\x00']
            ++ "Minestodon 1.19.3".data
            ++ ['\x00', '§', named.legacyChar, '§', 'l'] ++ "Minestodon!".data
            ++ ['\x00', '0', '\x00', '1']).length < 2 ^ 16 from by rw [hlen]; norm_num)]

/-- Witness for `legacy_status_response` at the squared-RGB distance and
an empty request remainder. -/
theorem legacy_status_response_witness :
    LabDistAdmissible rgbSqDist ∧
    ((∀ (dc : Nat → List Nat → Option (List Nat)) (pkt : Option PartialPacket) (c : Bool),
      connFeed dc ⟨pkt, false, c⟩ [0xfe] = .legacyPing []) ∧
    ∃ s : List Char,
      sendLegacyStatusResponse rgbSqDist [] serverListing
        = some (0xff :: (beBytes 2 (utf16Units s).length ++ utf16beBytes s)) ∧
      (([] : List Nat) = [] → s = "Minestodon!".data ++ ['§', '0', '§', '1']) ∧
      (([] : List Nat) ≠ [] → ∃ named : NamedTextColor,
        s = ['§', '1', '\x00', '7', '6', '1', '\x00'] ++ "Minestodon 1.19.3".data
          ++ ['\x00', '§', named.legacyChar, '§', 'l'] ++ "Minestodon!".data
          ++ ['\x00', '0', '\x00', '1'])) :=
  ⟨rgbSqDist_admissible, legacy_status_response rgbSqDist rgbSqDist_admissible []⟩

/-- C5 (counterexample): the claim is false of the superseded revision
(`mc.rs`).  For the empty request remainder the response string is
`Minestodon!§0§1` — 15 characters, 15 UTF-16 code units, 30 UTF-16BE
bytes — and that revision writes 30 (the byte length) in the `u16` length
field, so the output is not of the claimed `0xFF || u16be(code_units) ||
utf16be` form for any string. -/
theorem legacy_status_length_counterexample :
    ¬ ∃ s : List Char,
        sendLegacyStatusResponseOld "Minestodon!".data [] oldServerListing
          = some (0xff :: (beBytes 2 (utf16Units s).length ++ utf16beBytes s)) := by
  rintro ⟨s, hs⟩
  have hresp : legacyResponseOld "Minestodon!".data [] oldServerListing
      = "Minestodon!".data ++ ['§', '0', '§', '1'] := by
    rw [legacyResponseOld, if_pos (show ([] : List Nat).isEmpty = true from rfl)]
    simp only [oldServerListing, intChars_eval0, intChars_eval1]
    simp
  have hblen : (utf16beBytes ("Minestodon!".data ++ ['§', '0', '§', '1'])).length = 30 := by
    rw [utf16beBytes, utf16beUnits_length, utf16Units_length_bmp _ (by decide)]
    decide
  rw [sendLegacyStatusResponseOld, hresp, hblen, if_pos (by norm_num)] at hs
  have h1 := Option.some.inj hs
  rw [List.cons.injEq] at h1
  have htail := h1.2
  have hlens := congrArg List.length htail
  rw [List.length_append, List.length_append, hblen, beBytes_length, beBytes_length,
    utf16beBytes, utf16beUnits_length] at hlens
  have hu : (utf16Units s).length = 15 := by omega
  rw [hu] at htail
  have hpref := (List.append_inj htail (by rw [beBytes_length, beBytes_length])).1
  exact absurd hpref (by decide)

end Minestodon
